import Mathlib

/-!
# banking-repo: the CSV-backed client store and its HTTP glue

A shallow embedding of `investment-backend/main.go` and `lending-backend/main.go`.

* A `float64` is the type `F64`; `strconv.ParseFloat(s, 64)` is `parseFloat` and
  `fmt.Sprintf("%.2f", x)` is `fmt2`.  Both are standard-library functions; they are
  modelled by their value semantics (exact value, rounded to the nearest float64, ties to
  even).
* The store file is a `RawFile`: its characters, plus the errors opening it for reading or
  writing gives.  `csv.Reader.ReadAll` is `csvReadAll` and `csv.Writer` is `csvWriteRecord`
  and `csvWriteAll`, on the characters of the file (taken to be valid UTF-8).
* A `Disk` is what a method of the store has after `ReadAll`: the records read (`RawFile.read`
  gives it for a file).  The methods that read are functions of the `Disk`; `CreateClient`
  appends characters to the `RawFile`; `UpdateClient` and `DeleteClient` give the records
  they hand to `WriteAll`, and `DeleteClientOnFile` the file these records are written to.
* A Go run-time panic (index out of range) is the outer `none` of a result.
-/

namespace Banking

/-! ## float64 -/

/-- A float64 value.  `fin neg m e` is `(-1)^neg * m * 2^e`; the canonical form of a finite
value has `m` odd, or `m = 0` and `e = 0`. -/
inductive F64 where
  | nan
  | inf (neg : Bool)
  | fin (neg : Bool) (m : Nat) (e : Int)
deriving DecidableEq, Repr

namespace F64

/-- The two finite values `m1 * 2^e1` and `m2 * 2^e2` (signed) brought to a common
exponent, as integers. -/
def aligned (n1 : Bool) (m1 : Nat) (e1 : Int) (n2 : Bool) (m2 : Nat) (e2 : Int) : Int × Int :=
  let e := min e1 e2
  let a : Int := (m1 * 2 ^ (e1 - e).toNat : Nat)
  let b : Int := (m2 * 2 ^ (e2 - e).toNat : Nat)
  (if n1 then -a else a, if n2 then -b else b)

/-- Go `a < b` on float64: false when either side is NaN. -/
def lt : F64 → F64 → Bool
  | nan, _ => false
  | _, nan => false
  | inf n1, inf n2 => n1 && !n2
  | inf n1, fin _ _ _ => n1
  | fin _ _ _, inf n2 => !n2
  | fin n1 m1 e1, fin n2 m2 e2 =>
    let p := aligned n1 m1 e1 n2 m2 e2
    decide (p.1 < p.2)

/-- Go `a <= b` on float64: false when either side is NaN. -/
def le : F64 → F64 → Bool
  | nan, _ => false
  | _, nan => false
  | inf n1, inf n2 => n1 || !n2
  | inf n1, fin _ _ _ => n1
  | fin _ _ _, inf n2 => !n2
  | fin n1 m1 e1, fin n2 m2 e2 =>
    let p := aligned n1 m1 e1 n2 m2 e2
    decide (p.1 ≤ p.2)

/-- Go `a > b`. -/
def gt (a b : F64) : Bool := lt b a

/-- Go `a >= b`. -/
def ge (a b : F64) : Bool := le b a

/-- Go `a == b` on float64: numeric equality, false when either side is NaN. -/
def eq (a b : F64) : Bool := le a b && le b a

/-- Whether the value is NaN. -/
def isNaN : F64 → Bool
  | nan => true
  | _ => false

/-- Number of binary digits of `n` (`0` for `0`). -/
def bitLenAux : Nat → Nat → Nat
  | 0, _ => 0
  | fuel + 1, n => if n = 0 then 0 else bitLenAux fuel (n / 2) + 1

/-- Number of binary digits of `n`. -/
def bitLen (n : Nat) : Nat := bitLenAux n n

/-- The fraction `n / d` rounded to the nearest integer, ties to even. -/
def roundEven (n d : Nat) : Nat :=
  let q := n / d
  let r := n % d
  if d < 2 * r ∨ (2 * r = d ∧ q % 2 = 1) then q + 1 else q

/-- Divides out the factors of two of a mantissa, raising the exponent. -/
def stripTwos : Nat → Nat → Int → Nat × Int
  | 0, m, e => (m, e)
  | fuel + 1, m, e => if m % 2 = 0 ∧ m ≠ 0 then stripTwos fuel (m / 2) (e + 1) else (m, e)

/-- The float64 nearest to `(-1)^neg * n / d` (IEEE 754 round to nearest, ties to even),
with a flag that is true when the value is out of range (the result is then infinite).
The value is first expressed in units of `2^-1074`, the smallest subnormal; `s` is the
number of low bits that do not fit in a 53-bit mantissa. -/
def roundToF64 (neg : Bool) (n d : Nat) : F64 × Bool :=
  let a := n * 2 ^ 1074
  let s := bitLen (a / d) - 53
  let mant := roundEven a (d * 2 ^ s)
  if 2 ^ 2098 ≤ mant * 2 ^ s then (inf neg, true)
  else if mant = 0 then (fin neg 0 0, false)
  else
    let p := stripTwos mant mant ((s : Int) - 1074)
    (fin neg p.1 p.2, false)

/-- Whether a finite value is a float64: canonical, at most 53 mantissa bits, at least the
exponent of the smallest subnormal, and below `2^1024`.  NaN and the infinities are. -/
def isFloat64 : F64 → Bool
  | fin _ m e =>
    if m = 0 then decide (e = 0)
    else decide (m % 2 = 1 ∧ m < 2 ^ 53 ∧ -1074 ≤ e ∧ (bitLen m : Int) + e ≤ 1024)
  | _ => true

end F64

/-! ## strconv.ParseFloat -/

/-- The error of a `strconv` conversion: `ErrSyntax` or `ErrRange`. -/
inductive NumError where
  | malformed
  | outOfRange
deriving DecidableEq, Repr

/-- Go `lower(c)` of `strconv`: the byte with bit `0x20` set. -/
def lower (c : Char) : Char := Char.ofNat (c.toNat ||| 0x20)

/-- Whether `c` is a hexadecimal letter, `'a' <= lower(c) && lower(c) <= 'f'`. -/
def isHexLetter (c : Char) : Bool := decide ('a' ≤ lower c ∧ lower c ≤ 'f')

/-- Go `commonPrefixLenIgnoreCase(s, pre)`; `pre` is lower case. -/
def commonPrefixLenIgnoreCase : List Char → List Char → Nat
  | c :: s, p :: pre =>
    let c := if 'A' ≤ c ∧ c ≤ 'Z' then Char.ofNat (c.toNat + 32) else c
    if c = p then commonPrefixLenIgnoreCase s pre + 1 else 0
  | _, _ => 0

/-- The length of the infinity word at the head of `s`: 3 or 8, or none. -/
def infLen (s : List Char) : Option Nat :=
  let n := commonPrefixLenIgnoreCase s "infinity".toList
  let n := if 3 < n ∧ n < 8 then 3 else n
  if n = 3 ∨ n = 8 then some n else none

/-- Go `special(s)`: the infinities (with optional sign) and NaN, with the number of bytes
consumed. -/
def special : List Char → Option (F64 × Nat)
  | [] => none
  | c :: rest =>
    if c = '+' ∨ c = '-' then
      (infLen rest).map fun n => (F64.inf (decide (c = '-')), 1 + n)
    else if c = 'i' ∨ c = 'I' then
      (infLen (c :: rest)).map fun n => (F64.inf false, n)
    else if c = 'n' ∨ c = 'N' then
      if commonPrefixLenIgnoreCase (c :: rest) "nan".toList = 3 then some (F64.nan, 3) else none
    else none

/-- The state of the mantissa loop of `readFloat`: the value of the digits read, the
number of digits read after the point, and the flags of the loop. -/
structure Mantissa where
  value : Nat
  frac : Nat
  sawdot : Bool
  sawdigits : Bool
  underscores : Bool
deriving DecidableEq, Repr

/-- The mantissa loop of `readFloat`; returns the state and the unread input. -/
def scanMantissa (base : Nat) : List Char → Mantissa → Mantissa × List Char
  | [], st => (st, [])
  | c :: cs, st =>
    if c = '_' then scanMantissa base cs { st with underscores := true }
    else if c = '.' then
      if st.sawdot then (st, c :: cs)
      else scanMantissa base cs { st with sawdot := true }
    else if c.isDigit then
      scanMantissa base cs { st with
        sawdigits := true
        value := st.value * base + (c.toNat - 48)
        frac := if st.sawdot then st.frac + 1 else st.frac }
    else if base = 16 ∧ isHexLetter c then
      scanMantissa base cs { st with
        sawdigits := true
        value := st.value * 16 + ((lower c).toNat - 97 + 10)
        frac := if st.sawdot then st.frac + 1 else st.frac }
    else (st, c :: cs)

/-- The exponent-digit loop of `readFloat`: digits and underscores; the exponent stops
growing once it reaches 10000.  Returns the exponent, whether an underscore was seen, and
the unread input. -/
def scanExpDigits : List Char → Nat → Bool → Nat × Bool × List Char
  | [], e, u => (e, u, [])
  | c :: cs, e, u =>
    if c = '_' then scanExpDigits cs e true
    else if c.isDigit then
      scanExpDigits cs (if e < 10000 then e * 10 + (c.toNat - 48) else e) u
    else (e, u, c :: cs)

/-- The optional sign of the mantissa or of the exponent in `readFloat`: whether it is `-`,
and the input after it. -/
def readSign : List Char → Bool × List Char
  | [] => (false, [])
  | c :: t => if c = '+' then (false, t) else if c = '-' then (true, t) else (false, c :: t)

/-- The optional exponent of `readFloat`, read after the exponent character: a sign, then
at least one digit.  Returns the signed exponent, the underscore flag and the unread input,
or none when it is malformed. -/
def scanExponent (s : List Char) : Option (Int × Bool × List Char) :=
  let neg := (readSign s).1
  match (readSign s).2 with
  | [] => none
  | c :: t =>
    if c.isDigit then
      let r := scanExpDigits (c :: t) 0 false
      some (if neg then -(r.1 : Int) else r.1, r.2.1, r.2.2)
    else none

/-- The last kind of character seen by `underscoreOK`. -/
inductive Saw where
  | start
  | digit
  | underscore
  | other
deriving DecidableEq, Repr

/-- The main loop of `underscoreOK`. -/
def underscoreLoop (hex : Bool) : List Char → Saw → Bool
  | [], saw => saw != Saw.underscore
  | c :: cs, saw =>
    if c.isDigit ∨ (hex = true ∧ isHexLetter c = true) then underscoreLoop hex cs Saw.digit
    else if c = '_' then
      if saw != Saw.digit then false else underscoreLoop hex cs Saw.underscore
    else if saw == Saw.underscore then false
    else underscoreLoop hex cs Saw.other

/-- Go `underscoreOK(s)`: underscores only between digits, or between a base prefix and a
digit. -/
def underscoreOK (s : List Char) : Bool :=
  let s :=
    match s with
    | '-' :: t => t
    | '+' :: t => t
    | _ => s
  match s with
  | '0' :: c :: t =>
    if lower c = 'b' ∨ lower c = 'o' ∨ lower c = 'x' then
      underscoreLoop (decide (lower c = 'x')) t Saw.digit
    else underscoreLoop false s Saw.start
  | _ => underscoreLoop false s Saw.start

/-- What `readFloat` extracts from a well-formed literal that spans the whole input: the
sign, the value of the mantissa digits, and the exponent of `base` that scales it. -/
structure Literal where
  neg : Bool
  hex : Bool
  value : Nat
  exp : Int
deriving DecidableEq, Repr

/-- The optional base prefix of `readFloat`, `0x` or `0X` followed by at least one more
byte: whether it is there, and the input after it. -/
def readBase : List Char → Bool × List Char
  | c0 :: c1 :: c2 :: u =>
    if c0 = '0' ∧ lower c1 = 'x' then (true, c2 :: u) else (false, c0 :: c1 :: c2 :: u)
  | t => (false, t)

/-- Go `readFloat(s)` followed by the check of `ParseFloat` that the literal is the whole
input; none is the syntax error. -/
def readFloat (s : List Char) : Option Literal :=
  let neg := (readSign s).1
  let hex := (readBase (readSign s).2).1
  let r := scanMantissa (if hex then 16 else 10) (readBase (readSign s).2).2
    ⟨0, 0, false, false, false⟩
  let st := r.1
  if !st.sawdigits then none
  else
    let scale : Int := if hex then 4 * (st.frac : Int) else st.frac
    let fin (e : Int) (u : Bool) (rest : List Char) : Option Literal :=
      if (st.underscores || u) && !underscoreOK s then none
      else if rest ≠ [] then none
      else some ⟨neg, hex, st.value, e - scale⟩
    match r.2 with
    | [] => if hex then none else fin 0 false []
    | c :: rest =>
      if lower c = (if hex then 'p' else 'e') then
        match scanExponent rest with
        | none => none
        | some (e, u, rest) => fin e u rest
      else if hex then none
      else fin 0 false (c :: rest)

/-- The float64 a literal denotes: the exact value, rounded to nearest even; the flag is
the range error. -/
def Literal.toF64 (l : Literal) : F64 × Bool :=
  let b : Nat := if l.hex then 2 else 10
  if 0 ≤ l.exp then F64.roundToF64 l.neg (l.value * b ^ l.exp.toNat) 1
  else F64.roundToF64 l.neg l.value (b ^ (-l.exp).toNat)

/-- Go `strconv.ParseFloat(s, 64)`: the value and the error.  On a syntax error the value
is 0; on a range error it is the infinity of the sign. -/
def parseFloat (s : String) : F64 × Option NumError :=
  match special s.toList with
  | some (f, n) =>
    if n = s.toList.length then (f, none) else (F64.fin false 0 0, some NumError.malformed)
  | none =>
    match readFloat s.toList with
    | none => (F64.fin false 0 0, some NumError.malformed)
    | some l =>
      let r := l.toF64
      (r.1, if r.2 then some NumError.outOfRange else none)

/-! ## fmt.Sprintf("%.2f", x) -/

/-- The value `m * 2^e` in hundredths, rounded to the nearest integer, ties to even. -/
def hundredths (m : Nat) (e : Int) : Nat :=
  if 0 ≤ e then m * 2 ^ e.toNat * 100 else F64.roundEven (m * 100) (2 ^ (-e).toNat)

/-- Go `fmt.Sprintf("%.2f", x)`. -/
def fmt2 : F64 → String
  | F64.nan => "NaN"
  | F64.inf false => "+Inf"
  | F64.inf true => "-Inf"
  | F64.fin neg m e =>
    let h := hundredths m e
    String.mk ((if neg then ['-'] else []) ++ Nat.toDigits 10 (h / 100)
      ++ ['.', Nat.digitChar (h % 100 / 10), Nat.digitChar (h % 10)])

/-! ## The store file -/

/-- A failure of the operating system or of the csv reader, with its message. -/
structure FileError where
  msg : String
deriving DecidableEq, Repr

/-- The store file as the code sees it.  `records` is what `csv.Reader.ReadAll` yields (row 0
is the header); `readErr` is the error of `os.Open` or `ReadAll`, if any; `writeErr` is the
error of `os.Create` or `os.OpenFile` for writing, if any. -/
structure Disk where
  readErr : Option FileError
  writeErr : Option FileError
  records : List (List String)
deriving DecidableEq, Repr

/-- A Go slice value: the nil slice, or a slice with elements (possibly none). -/
inductive Slice (α : Type) where
  | null
  | items (xs : List α)
deriving DecidableEq, Repr

/-- The elements of a slice. -/
def Slice.toList {α : Type} : Slice α → List α
  | Slice.null => []
  | Slice.items xs => xs

/-- Go `append(s, x)`. -/
def Slice.append {α : Type} (s : Slice α) (x : α) : Slice α := Slice.items (s.toList ++ [x])

/-! ## encoding/csv -/

/-- The errors of `csv.Reader`: `ErrBareQuote`, `ErrQuote` and `ErrFieldCount`. -/
inductive CsvError where
  | bareQuote
  | quote
  | fieldCount
deriving DecidableEq, Repr

/-- What `csv.Reader.readLine` does to the lines it hands to the parser, seen on the whole
input: a carriage return right before a line feed is dropped, and so is a carriage return
that ends the input. -/
def normalizeLines : List Char → List Char
  | [] => []
  | c :: cs =>
    if c = '\r' then
      match cs with
      | [] => []
      | d :: _ => if d = '\n' then normalizeLines cs else c :: normalizeLines cs
    else c :: normalizeLines cs

/-- Where `csv.Reader.readRecord` is in its input. -/
inductive ReaderMode where
  | recordStart
  | fieldStart
  | unquoted
  | quoted
  | quoteSeen
deriving DecidableEq, Repr

/-- The state of `csv.Reader` while `ReadAll` runs: the characters of the field being read,
the fields of the record being read, the records read, and `FieldsPerRecord` once the first
record has set it. -/
structure ReaderState where
  mode : ReaderMode
  field : List Char
  record : List String
  records : List (List String)
  fieldsPerRecord : Option Nat
deriving DecidableEq, Repr

/-- The end of a field that a comma follows. -/
def ReaderState.endField (st : ReaderState) : ReaderState :=
  { st with mode := ReaderMode.fieldStart, field := [],
            record := st.record ++ [String.mk st.field] }

/-- A complete record: its number of fields is checked against `FieldsPerRecord`, which the
first record sets. -/
def ReaderState.close (st : ReaderState) (fields : List String) : Except CsvError ReaderState :=
  match st.fieldsPerRecord with
  | none =>
    Except.ok ⟨ReaderMode.recordStart, [], [], st.records ++ [fields], some fields.length⟩
  | some n =>
    if fields.length = n then
      Except.ok ⟨ReaderMode.recordStart, [], [], st.records ++ [fields], some n⟩
    else Except.error CsvError.fieldCount

/-- The end of a record, at the end of its last field. -/
def ReaderState.endRecord (st : ReaderState) : Except CsvError ReaderState :=
  st.close (st.record ++ [String.mk st.field])

/-- One character of input to `csv.Reader` with the default settings (comma `,`, no
comment character, no lazy quotes, no trimming). -/
def ReaderState.step (st : ReaderState) (c : Char) : Except CsvError ReaderState :=
  match st.mode with
  | ReaderMode.recordStart =>
    if c = '\n' then Except.ok st
    else if c = '"' then Except.ok { st with mode := ReaderMode.quoted }
    else if c = ',' then Except.ok st.endField
    else Except.ok { st with mode := ReaderMode.unquoted, field := [c] }
  | ReaderMode.fieldStart =>
    if c = '\n' then st.endRecord
    else if c = '"' then Except.ok { st with mode := ReaderMode.quoted }
    else if c = ',' then Except.ok st.endField
    else Except.ok { st with mode := ReaderMode.unquoted, field := [c] }
  | ReaderMode.unquoted =>
    if c = '\n' then st.endRecord
    else if c = ',' then Except.ok st.endField
    else if c = '"' then Except.error CsvError.bareQuote
    else Except.ok { st with field := st.field ++ [c] }
  | ReaderMode.quoted =>
    if c = '"' then Except.ok { st with mode := ReaderMode.quoteSeen }
    else Except.ok { st with field := st.field ++ [c] }
  | ReaderMode.quoteSeen =>
    if c = '"' then Except.ok { st with mode := ReaderMode.quoted, field := st.field ++ [c] }
    else if c = ',' then Except.ok st.endField
    else if c = '\n' then st.endRecord
    else Except.error CsvError.quote

/-- The reader run over a piece of input. -/
def ReaderState.run : ReaderState → List Char → Except CsvError ReaderState
  | st, [] => Except.ok st
  | st, c :: cs =>
    match st.step c with
    | Except.ok st' => st'.run cs
    | Except.error e => Except.error e

/-- The end of the input: the records read, the last one closed when the input does not end
with a line feed; an open quoted field is an error. -/
def ReaderState.finish (st : ReaderState) : Except CsvError (List (List String)) :=
  match st.mode with
  | ReaderMode.recordStart => Except.ok st.records
  | ReaderMode.quoted => Except.error CsvError.quote
  | _ =>
    match st.endRecord with
    | Except.ok st' => Except.ok st'.records
    | Except.error e => Except.error e

/-- The state in which `csv.NewReader` starts. -/
def ReaderState.init : ReaderState := ⟨ReaderMode.recordStart, [], [], [], none⟩

/-- Go `csv.NewReader(file).ReadAll()` on the characters of a file: the records, or the
error. -/
def csvReadAll (content : List Char) : Except CsvError (List (List String)) :=
  match ReaderState.init.run (normalizeLines content) with
  | Except.ok st => st.finish
  | Except.error e => Except.error e

/-- Go `unicode.IsSpace`. -/
def isSpace (c : Char) : Bool :=
  let n := c.toNat
  (9 ≤ n && n ≤ 13) || n == 0x20 || n == 0x85 || n == 0xA0 || n == 0x1680
    || (0x2000 ≤ n && n ≤ 0x200A) || n == 0x2028 || n == 0x2029 || n == 0x202F
    || n == 0x205F || n == 0x3000

/-- Go `(*csv.Writer).fieldNeedsQuotes` with the comma `,`. -/
def fieldNeedsQuotes (field : String) : Bool :=
  if field = "" then false
  else if field = "\\." then true
  else if field.toList.any (fun c => c = '\n' || c = '\r' || c = '"' || c = ',') then true
  else
    match field.toList with
    | [] => false
    | c :: _ => isSpace c

/-- The characters of a quoted field between its quotes: each quote is doubled. -/
def escapeQuotes : List Char → List Char
  | [] => []
  | c :: cs => if c = '"' then '"' :: '"' :: escapeQuotes cs else c :: escapeQuotes cs

/-- What `(*csv.Writer).Write` writes for one field (without `UseCRLF`). -/
def csvWriteField (field : String) : List Char :=
  if fieldNeedsQuotes field then '"' :: (escapeQuotes field.toList ++ ['"'])
  else field.toList

/-- The fields of a record as `(*csv.Writer).Write` writes them, with a comma before each
field but the first. -/
def csvWriteFields : List String → List Char
  | [] => []
  | [f] => csvWriteField f
  | f :: g :: rest => csvWriteField f ++ ',' :: csvWriteFields (g :: rest)

/-- Go `(*csv.Writer).Write(record)` followed by `Flush`: the characters written. -/
def csvWriteRecord (record : List String) : List Char := csvWriteFields record ++ ['\n']

/-- Go `(*csv.Writer).WriteAll(records)`: the characters written. -/
def csvWriteAll : List (List String) → List Char
  | [] => []
  | r :: rs => csvWriteRecord r ++ csvWriteAll rs

/-- The message of a `csv.ParseError`, without its line and column. -/
def CsvError.toFileError : CsvError → FileError
  | CsvError.bareQuote => ⟨"bare \" in non-quoted-field"⟩
  | CsvError.quote => ⟨"extraneous or missing \" in quoted-field"⟩
  | CsvError.fieldCount => ⟨"wrong number of fields"⟩

/-- The store file on disk: its characters, the error of `os.Open`, if any, and the error of
`os.Create` or `os.OpenFile` for writing, if any. -/
structure RawFile where
  openErr : Option FileError
  writeErr : Option FileError
  content : List Char
deriving DecidableEq, Repr

/-- What `os.Open` followed by `csv.NewReader(file).ReadAll()` gives a method of the store
for the file. -/
def RawFile.read (f : RawFile) : Disk :=
  match f.openErr with
  | some err => ⟨some err, f.writeErr, []⟩
  | none =>
    match csvReadAll f.content with
    | Except.ok records => ⟨none, f.writeErr, records⟩
    | Except.error e => ⟨some e.toFileError, f.writeErr, []⟩

/-- What `os.Create` followed by `WriteAll(records)` leaves of the file. -/
def RawFile.writeAll (f : RawFile) (records : List (List String)) : RawFile :=
  { f with content := csvWriteAll records }

/-! ## investment-backend -/

/-- Go `type Client struct`. -/
structure Client where
  ID : String
  Name : String
  Email : String
  TotalInvestment : F64
deriving DecidableEq, Repr

/-- The struct literal `Client{ID: rec[0], Name: rec[1], Email: rec[2], TotalInvestment: inv}`;
none when an index is out of range. -/
def clientOfRow (rec : List String) (inv : F64) : Option Client :=
  match rec[0]?, rec[1]?, rec[2]? with
  | some id, some name, some email => some ⟨id, name, email, inv⟩
  | _, _, _ => none

/-- The loop of `GetClients` from row `i` on; none is the index-out-of-range panic. -/
def getClientsLoop (minInvestment maxInvestment : Option F64) :
    Nat → List (List String) → Slice Client → Option (Slice Client)
  | _, [], clients => some clients
  | i, rec :: rest, clients =>
    if i = 0 then getClientsLoop minInvestment maxInvestment (i + 1) rest clients
    else
      match rec[3]? with
      | none => none
      | some field =>
        match parseFloat field with
        | (_, some _) => getClientsLoop minInvestment maxInvestment (i + 1) rest clients
        | (inv, none) =>
          match clientOfRow rec inv with
          | none => none
          | some client =>
            if minInvestment.any (fun lo => F64.lt client.TotalInvestment lo) then
              getClientsLoop minInvestment maxInvestment (i + 1) rest clients
            else if maxInvestment.any (fun hi => F64.gt client.TotalInvestment hi) then
              getClientsLoop minInvestment maxInvestment (i + 1) rest clients
            else
              getClientsLoop minInvestment maxInvestment (i + 1) rest (clients.append client)

/-- Go `(*CSVClientStore).GetClients`: the slice and the error; none is a panic. -/
def GetClients (d : Disk) (minInvestment maxInvestment : Option F64) :
    Option (Slice Client × Option FileError) :=
  match d.readErr with
  | some err => some (Slice.null, some err)
  | none =>
    (getClientsLoop minInvestment maxInvestment 0 d.records Slice.null).map fun cs => (cs, none)

/-- The loop of `GetClientByID` from row `i` on: the client found, if any; the outer none is
a panic. -/
def getClientByIDLoop (id : String) : Nat → List (List String) → Option (Option Client)
  | _, [] => some none
  | i, rec :: rest =>
    if i = 0 then getClientByIDLoop id (i + 1) rest
    else
      match rec[0]? with
      | none => none
      | some first =>
        if first = id then
          match rec[3]? with
          | none => none
          | some field => (clientOfRow rec (parseFloat field).1).map some
        else getClientByIDLoop id (i + 1) rest

/-- Go `(*CSVClientStore).GetClientByID`: the pointer (none is nil) and the error. -/
def GetClientByID (d : Disk) (id : String) : Option (Option Client × Option FileError) :=
  match d.readErr with
  | some err => some (none, some err)
  | none => (getClientByIDLoop id 0 d.records).map fun c => (c, none)

/-- The row the store writes for a client under the given id. -/
def rowOf (id : String) (c : Client) : List String :=
  [id, c.Name, c.Email, fmt2 c.TotalInvestment]

/-- Go `(*CSVClientStore).CreateClient`: the error and the file afterwards.  The file is
opened with `O_APPEND` and the row is written after what it holds. -/
def CreateClient (f : RawFile) (c : Client) : Option FileError × RawFile :=
  match f.writeErr with
  | some err => (some err, f)
  | none => (none, { f with content := f.content ++ csvWriteRecord (rowOf c.ID c) })

/-- The loop of `UpdateClient` from row `i` on: the records after the loop and `found`. -/
def updateLoop (id : String) (updated : Client) :
    Nat → List (List String) → Option (List (List String) × Bool)
  | _, [] => some ([], false)
  | i, rec :: rest =>
    if i = 0 then (updateLoop id updated (i + 1) rest).map fun r => (rec :: r.1, r.2)
    else
      match rec[0]? with
      | none => none
      | some first =>
        if first = id then some (rowOf id updated :: rest, true)
        else (updateLoop id updated (i + 1) rest).map fun r => (rec :: r.1, r.2)

/-- Go `(*CSVClientStore).UpdateClient`: `(found, err)` and the file afterwards. -/
def UpdateClient (d : Disk) (id : String) (updated : Client) :
    Option ((Bool × Option FileError) × Disk) :=
  match d.readErr with
  | some err => some ((false, some err), d)
  | none =>
    match updateLoop id updated 0 d.records with
    | none => none
    | some (records, found) =>
      if !found then some ((false, none), d)
      else
        match d.writeErr with
        | some err => some ((false, some err), d)
        | none => some ((true, none), { d with records := records })

/-- The loop of `DeleteClient` from row `i` on: `newRecords` and `found`. -/
def deleteLoop (id : String) :
    Nat → List (List String) → List (List String) → Bool → Option (List (List String) × Bool)
  | _, [], newRecords, found => some (newRecords, found)
  | i, rec :: rest, newRecords, found =>
    if i = 0 then deleteLoop id (i + 1) rest (newRecords ++ [rec]) found
    else
      match rec[0]? with
      | none => none
      | some first =>
        if first ≠ id then deleteLoop id (i + 1) rest (newRecords ++ [rec]) found
        else deleteLoop id (i + 1) rest newRecords true

/-- Go `(*CSVClientStore).DeleteClient` on the records read: `(found, err)`, and the records
handed to `WriteAll` when the file is rewritten (the records read when it is not). -/
def DeleteClient (d : Disk) (id : String) : Option ((Bool × Option FileError) × Disk) :=
  match d.readErr with
  | some err => some ((false, some err), d)
  | none =>
    match deleteLoop id 0 d.records [] false with
    | none => none
    | some (newRecords, found) =>
      if !found then some ((false, none), d)
      else
        match d.writeErr with
        | some err => some ((false, some err), d)
        | none => some ((true, none), { d with records := newRecords })

/-- Go `(*CSVClientStore).DeleteClient` on the file: the file is read, and when a row is
found it is rewritten with the records `DeleteClient` keeps. -/
def DeleteClientOnFile (f : RawFile) (id : String) :
    Option ((Bool × Option FileError) × RawFile) :=
  match DeleteClient f.read id with
  | none => none
  | some ((found, err), d) =>
    if found = true ∧ err = none then some ((found, err), f.writeAll d.records)
    else some ((found, err), f)

/-! ## The GET collection handler -/

/-- What a handler leaves in the response writer. -/
structure Response where
  status : Nat
  contentType : Option String
  body : String
deriving DecidableEq, Repr

/-- Go `json.NewEncoder(w).Encode(clients)` for a slice of clients, as the bytes written.
`marshal` is the encoding of one client (none when `encoding/json` rejects a value, as it
does NaN and the infinities); a nil slice is encoded as `null`, and nothing is written when
an element is rejected. -/
def encodeClients (marshal : Client → Option String) : Slice Client → String
  | Slice.null => "null\n"
  | Slice.items cs =>
    match cs.mapM marshal with
    | some parts => "[" ++ ",".intercalate parts ++ "]\n"
    | none => ""

/-- A bound of the query: `r.URL.Query().Get(key)` is `q` (empty when the key is absent);
the bound is set only when `q` is not empty and parses without error. -/
def queryBound (q : String) : Option F64 :=
  if q ≠ "" then
    match parseFloat q with
    | (val, none) => some val
    | (_, some _) => none
  else none

/-- Go `getClientsHandler(store)` run on a request whose query has `minInvestment = qmin`
and `maxInvestment = qmax`; none is a panic. -/
def getClientsHandler (marshal : Client → Option String) (d : Disk) (qmin qmax : String) :
    Option Response :=
  let minInvestment := queryBound qmin
  let maxInvestment := queryBound qmax
  match GetClients d minInvestment maxInvestment with
  | none => none
  | some (_, some err) => some ⟨500, none, "Error: " ++ err.msg⟩
  | some (clients, none) => some ⟨200, some "application/json", encodeClients marshal clients⟩

/-! ## Route registration in `main` -/

/-- Go `http.HandleFunc(pattern, handler)` on the default mux, the mux being the list of
patterns registered so far: it panics (none) on an empty pattern and on a pattern that is
already registered. -/
def HandleFunc (mux : List String) (pattern : String) : Option (List String) :=
  if pattern = "" ∨ pattern ∈ mux then none else some (mux ++ [pattern])

/-- The patterns `main` of investment-backend registers, in order (lines 286, 287, 297). -/
def investmentPatterns : List String := ["/clients", "/clients/", "/clients"]

/-- The patterns `main` of lending-backend registers, in order (lines 285, 293). -/
def lendingPatterns : List String := ["/lending-clients", "/lending-clients/"]

/-- The registrations of a `main`, run in order from the empty mux: the mux with which
`http.ListenAndServe` is reached, or none when a registration panics. -/
def registerAll (patterns : List String) : Option (List String) :=
  patterns.foldlM HandleFunc []

/-! ## lending-backend -/

/-- Go `type LendingClient struct`. -/
structure LendingClient where
  ID : String
  Name : String
  Email : String
  TotalLend : F64
deriving DecidableEq, Repr

/-- The struct literal `LendingClient{ID: rec[0], Name: rec[1], Email: rec[2], TotalLend: lend}`;
none when an index is out of range. -/
def lendingClientOfRow (rec : List String) (lend : F64) : Option LendingClient :=
  match rec[0]?, rec[1]?, rec[2]? with
  | some id, some name, some email => some ⟨id, name, email, lend⟩
  | _, _, _ => none

/-- The loop of `GetLendingClients` from row `i` on; none is the index-out-of-range panic. -/
def getLendingClientsLoop (minLend maxLend : Option F64) :
    Nat → List (List String) → Slice LendingClient → Option (Slice LendingClient)
  | _, [], clients => some clients
  | i, rec :: rest, clients =>
    if i = 0 then getLendingClientsLoop minLend maxLend (i + 1) rest clients
    else
      match rec[3]? with
      | none => none
      | some field =>
        match parseFloat field with
        | (_, some _) => getLendingClientsLoop minLend maxLend (i + 1) rest clients
        | (lend, none) =>
          match lendingClientOfRow rec lend with
          | none => none
          | some client =>
            if minLend.any (fun lo => F64.lt client.TotalLend lo) then
              getLendingClientsLoop minLend maxLend (i + 1) rest clients
            else if maxLend.any (fun hi => F64.gt client.TotalLend hi) then
              getLendingClientsLoop minLend maxLend (i + 1) rest clients
            else
              getLendingClientsLoop minLend maxLend (i + 1) rest (clients.append client)

/-- Go `(*CSVLendingClientStore).GetLendingClients`: the slice and the error; none is a
panic. -/
def GetLendingClients (d : Disk) (minLend maxLend : Option F64) :
    Option (Slice LendingClient × Option FileError) :=
  match d.readErr with
  | some err => some (Slice.null, some err)
  | none =>
    (getLendingClientsLoop minLend maxLend 0 d.records Slice.null).map fun cs => (cs, none)

/-! ## Specification vocabulary -/

/-- A store file: readable, with a header row followed by four-field data rows. -/
def StoreFile (d : Disk) : Prop :=
  d.readErr = none ∧ d.records ≠ [] ∧ ∀ row ∈ d.records.tail, row.length = 4

/-- The data rows of the file: every row after the header. -/
def dataRows (d : Disk) : List (List String) := d.records.tail

/-- The record built from a data row: its ID, name, email and parsed amount. -/
def recordOf (row : List String) : Client :=
  ⟨row.getD 0 "", row.getD 1 "", row.getD 2 "", (parseFloat (row.getD 3 "")).1⟩

/-- Whether the amount field of a row parses without error. -/
def amountParses (row : List String) : Bool := (parseFloat (row.getD 3 "")).2.isNone

/-- Whether a row passes the filter of `GetClients`: its amount parses, is not below the
lower bound and not above the upper bound (when present). -/
def passes (lo hi : Option F64) (row : List String) : Bool :=
  amountParses row && !lo.any (fun b => F64.lt (recordOf row).TotalInvestment b)
    && !hi.any (fun b => F64.gt (recordOf row).TotalInvestment b)

/-- The rows the claim "min <= amount <= max" keeps: the amount parses, is `>=` the lower
bound and `<=` the upper bound (when present). -/
def claimedPasses (lo hi : Option F64) (row : List String) : Bool :=
  amountParses row && lo.all (fun b => F64.ge (recordOf row).TotalInvestment b)
    && hi.all (fun b => F64.le (recordOf row).TotalInvestment b)

/-- The lending record with the fields of an investment record. -/
def toLending (c : Client) : LendingClient := ⟨c.ID, c.Name, c.Email, c.TotalInvestment⟩

/-- A slice with a function applied to each element; nil stays nil. -/
def Slice.map {α β : Type} (f : α → β) : Slice α → Slice β
  | Slice.null => Slice.null
  | Slice.items xs => Slice.items (xs.map f)

/-- The file `setupTestCSV` of `main_test.go` writes. -/
def exampleDisk : Disk :=
  ⟨none, none,
    [["id", "name", "email", "totalInvestment"],
     ["1", "Alice", "alice@example.com", "1000.00"],
     ["2", "Bob", "bob@example.com", "20000.00"],
     ["3", "Carol", "carol@example.com", "300000.00"]]⟩

/-- The header row of the example files. -/
def exampleHeader : List String := ["id", "name", "email", "totalInvestment"]

/-- A file whose only data row has the amount `NaN`. -/
def nanDisk : Disk :=
  ⟨none, none, [exampleHeader, ["1", "Ann", "ann@example.com", "NaN"]]⟩

/-- A file whose only data row has an amount that is not a number. -/
def unparsedDisk : Disk :=
  ⟨none, none, [exampleHeader, ["1", "Ann", "ann@example.com", "n/a"]]⟩

/-- A file with a header row and no data row. -/
def headerOnlyDisk : Disk := ⟨none, none, [exampleHeader]⟩

/-- A file in which two data rows share the id `1`. -/
def duplicateDisk : Disk :=
  ⟨none, none,
    [exampleHeader,
     ["1", "Ann", "ann@example.com", "10.00"],
     ["2", "Bob", "bob@example.com", "20.00"],
     ["1", "Cy", "cy@example.com", "30.00"]]⟩

/-- The float64 `1000`. -/
def oneThousand : F64 := F64.fin false 125 3

/-- The float64 `20000`. -/
def twentyThousand : F64 := F64.fin false 625 5

/-- The decimal digit characters. -/
def decimalDigits : List Char := ['0', '1', '2', '3', '4', '5', '6', '7', '8', '9']

/-- The step of reading decimal digits: the value so far, times ten, plus the digit. -/
def pushDigit (a : Nat) (c : Char) : Nat := a * 10 + (c.toNat - 48)

/-- The digits `fmt2` writes for the hundredths `k`, without the sign. -/
def fixedDigits (k : Nat) : List Char :=
  Nat.toDigits 10 (k / 100) ++ ['.', Nat.digitChar (k % 100 / 10), Nat.digitChar (k % 10)]

/-- Whether an amount has at most two decimal digits: it is finite and a hundred times it
is an integer. -/
def hasTwoDecimals : F64 → Bool
  | F64.fin _ m e => decide (0 ≤ e ∨ 2 ^ (-e).toNat ∣ m * 100)
  | _ => false

/-- Whether an amount is the float64 of a decimal numeral with at most two fractional
digits: the float64 nearest to `k / 100`, or to `-k / 100`, for a natural number `k`. -/
def TwoDecimals (x : F64) : Prop :=
  ∃ (neg : Bool) (k : Nat), F64.roundToF64 neg k (10 ^ 2) = (x, false)

/-- The float64 `1234.56`, as `strconv.ParseFloat` and `encoding/json` read it. -/
def amount123456 : F64 := F64.fin false 2714826150374277 (-41)

/-- A client with the amount 1234.56. -/
def erin : Client := ⟨"5", "Erin", "erin@example.com", amount123456⟩

/-- What holds of the state of `csv.Reader` between two characters: `FieldsPerRecord` is the
number of fields of the first record read, every record read has that number of fields, and
at the start of a record no field is open. -/
def ReaderState.Inv (st : ReaderState) : Prop :=
  st.fieldsPerRecord = st.records.head?.map List.length
  ∧ (∀ r ∈ st.records, some r.length = st.fieldsPerRecord)
  ∧ (st.mode = ReaderMode.recordStart → st.field = [] ∧ st.record = [])

/-- The characters of the file `setupTestCSV` of `main_test.go` writes. -/
def exampleFile : RawFile :=
  ⟨none, none,
    ("id,name,email,totalInvestment\n1,Alice,alice@example.com,1000.00\n"
      ++ "2,Bob,bob@example.com,20000.00\n3,Carol,carol@example.com,300000.00\n").toList⟩

/-- A store file whose last line does not end with a line feed. -/
def noFinalNewlineFile : RawFile :=
  ⟨none, none, "id,name,email,totalInvestment\n1,Alice,alice@example.com,1000.00".toList⟩

/-- The characters of a file in which two data rows share the id `1`. -/
def duplicateFile : RawFile :=
  ⟨none, none,
    ("id,name,email,totalInvestment\n1,Ann,ann@example.com,10.00\n"
      ++ "2,Bob,bob@example.com,20.00\n1,Cy,cy@example.com,30.00\n").toList⟩

/-- A store file with two data rows: the id of the first is `a`, a carriage return, a line
feed, `b` (in the file a second carriage return stands before the line feed, which the
reader drops); the id of the second is `a`, a line feed, `b`. -/
def carriageReturnFile : RawFile :=
  ⟨none, none,
    ("id,name,email,totalInvestment\n\"a\r\r\nb\",Ann,ann@example.com,10.00\n"
      ++ "\"a\nb\",Bob,bob@example.com,20.00\n").toList⟩

/-! ## Lemmas on the loops -/

theorem four_fields (row : List String) (h : row.length = 4) :
    ∃ a b c e, row = [a, b, c, e] := by
  match row, h with
  | [a, b, c, e], _ => exact ⟨a, b, c, e, rfl⟩

/-- The loop of `GetClients` after the header: it appends the records of the rows that pass,
in order, and leaves the slice as it is when none passes. -/
theorem getClientsLoop_spec (lo hi : Option F64) (rows : List (List String))
    (h : ∀ row ∈ rows, row.length = 4) (i : Nat) (acc : Slice Client) :
    getClientsLoop lo hi (i + 1) rows acc
      = some (if rows.filter (passes lo hi) = [] then acc
              else Slice.items (acc.toList ++ (rows.filter (passes lo hi)).map recordOf)) := by
  induction rows generalizing i acc with
  | nil => simp [getClientsLoop]
  | cons row rest ih =>
    obtain ⟨a, b, c, e, rfl⟩ := four_fields row (h _ (List.mem_cons_self _ _))
    have hrest : ∀ r ∈ rest, r.length = 4 := fun r hr => h r (List.mem_cons_of_mem _ hr)
    have hrec : recordOf [a, b, c, e] = ⟨a, b, c, (parseFloat e).1⟩ := rfl
    have hpar : amountParses [a, b, c, e] = (parseFloat e).2.isNone := rfl
    rw [getClientsLoop, if_neg (Nat.succ_ne_zero i)]
    show (match parseFloat e with
      | (_, some _) => getClientsLoop lo hi (i + 1 + 1) rest acc
      | (inv, none) =>
        match clientOfRow [a, b, c, e] inv with
        | none => none
        | some client =>
          if lo.any (fun b => F64.lt client.TotalInvestment b) then
            getClientsLoop lo hi (i + 1 + 1) rest acc
          else if hi.any (fun b => F64.gt client.TotalInvestment b) then
            getClientsLoop lo hi (i + 1 + 1) rest acc
          else getClientsLoop lo hi (i + 1 + 1) rest (acc.append client)) = _
    rcases hp : parseFloat e with ⟨inv, err⟩
    rw [hp] at hrec hpar
    cases err with
    | some er =>
      have hpass : passes lo hi [a, b, c, e] = false := by simp [passes, hpar]
      simp only [List.filter_cons, hpass]
      exact ih hrest (i + 1) acc
    | none =>
      show (if lo.any (fun b => F64.lt inv b) then getClientsLoop lo hi (i + 1 + 1) rest acc
        else if hi.any (fun b => F64.gt inv b) then getClientsLoop lo hi (i + 1 + 1) rest acc
        else getClientsLoop lo hi (i + 1 + 1) rest (acc.append ⟨a, b, c, inv⟩)) = _
      by_cases hlo : lo.any (fun b => F64.lt inv b) = true
      · have hpass : passes lo hi [a, b, c, e] = false := by simp [passes, hrec, hlo]
        simp only [hlo, if_true, List.filter_cons, hpass]
        exact ih hrest (i + 1) acc
      · by_cases hhi : hi.any (fun b => F64.gt inv b) = true
        · have hpass : passes lo hi [a, b, c, e] = false := by simp [passes, hrec, hhi]
          simp only [hlo, hhi, if_true, List.filter_cons, hpass]
          exact ih hrest (i + 1) acc
        · have hpass : passes lo hi [a, b, c, e] = true := by
            simp only [Bool.not_eq_true] at hlo hhi
            simp [passes, hpar, hrec, hlo, hhi]
          rw [if_neg hlo, if_neg hhi, ih hrest (i + 1)]
          simp only [List.filter_cons, hpass, if_true, List.map_cons, hrec]
          by_cases hnil : rest.filter (passes lo hi) = [] <;>
            simp [Slice.append, Slice.toList, hnil]

/-- `GetClients` on a readable file with four-field data rows: the nil slice when no data
row passes, else the records of the rows that pass, in file order. -/
theorem GetClients_eq (d : Disk) (hr : d.readErr = none)
    (h4 : ∀ row ∈ dataRows d, row.length = 4) (lo hi : Option F64) :
    GetClients d lo hi
      = some (if (dataRows d).filter (passes lo hi) = [] then Slice.null
              else Slice.items (((dataRows d).filter (passes lo hi)).map recordOf), none) := by
  unfold GetClients
  rw [hr]
  unfold dataRows at h4 ⊢
  cases hrec : d.records with
  | nil => simp [getClientsLoop]
  | cons hdr rows =>
    rw [hrec] at h4
    rw [getClientsLoop, if_pos rfl, getClientsLoop_spec lo hi rows h4 0 Slice.null]
    simp [Slice.toList]

/-- The loop of `GetLendingClients` computes what the loop of `GetClients` computes, on
records with the amount under the other field name. -/
theorem getLendingClientsLoop_eq (lo hi : Option F64) (rows : List (List String)) (i : Nat)
    (acc : Slice Client) :
    getLendingClientsLoop lo hi i rows (acc.map toLending)
      = (getClientsLoop lo hi i rows acc).map (Slice.map toLending) := by
  induction rows generalizing i acc with
  | nil => simp [getLendingClientsLoop, getClientsLoop]
  | cons row rest ih =>
    rw [getLendingClientsLoop, getClientsLoop]
    by_cases hi0 : i = 0
    · simp only [hi0, if_true]; exact ih _ _
    · simp only [hi0, if_false]
      cases h3 : row[3]? with
      | none => rfl
      | some field =>
        simp only []
        rcases hp : parseFloat field with ⟨inv, err⟩
        cases err with
        | some er => simp only []; exact ih _ _
        | none =>
          simp only [lendingClientOfRow, clientOfRow]
          cases row[0]? <;> cases row[1]? <;> cases row[2]? <;> try rfl
          rename_i a b c
          dsimp only
          split_ifs
          · exact ih _ _
          · exact ih _ _
          · have happ : ∀ x : Client, (acc.map toLending).append (toLending x)
                = (acc.append x).map toLending := by
              intro x; cases acc <;> simp [Slice.append, Slice.map, Slice.toList]
            have hstep := ih (i + 1) (acc.append ⟨a, b, c, inv⟩)
            rw [← happ] at hstep
            exact hstep

/-- `GetLendingClients` returns the records `GetClients` returns, as lending records. -/
theorem GetLendingClients_eq (d : Disk) (lo hi : Option F64) :
    GetLendingClients d lo hi
      = (GetClients d lo hi).map (fun r => (r.1.map toLending, r.2)) := by
  unfold GetLendingClients GetClients
  cases d.readErr with
  | some err => rfl
  | none =>
    have h := getLendingClientsLoop_eq lo hi d.records 0 Slice.null
    simp only [Slice.map] at h
    simp only [h, Option.map_map]
    rfl

/-- The loop of `GetClientByID` after the header, on four-field rows: the record of the
first row whose first field is `id`, if there is one. -/
theorem getClientByIDLoop_spec (id : String) (rows : List (List String))
    (h : ∀ row ∈ rows, row.length = 4) (i : Nat) :
    getClientByIDLoop id (i + 1) rows
      = some ((rows.find? (fun row => row[0]? == some id)).map recordOf) := by
  induction rows generalizing i with
  | nil => simp [getClientByIDLoop]
  | cons row rest ih =>
    obtain ⟨a, b, c, e, rfl⟩ := four_fields row (h _ (List.mem_cons_self _ _))
    have hrest : ∀ r ∈ rest, r.length = 4 := fun r hr => h r (List.mem_cons_of_mem _ hr)
    rw [getClientByIDLoop, if_neg (Nat.succ_ne_zero i)]
    show (if a = id then (clientOfRow [a, b, c, e] (parseFloat e).1).map some
      else getClientByIDLoop id (i + 1 + 1) rest) = _
    by_cases hid : a = id
    · rw [if_pos hid]
      rw [List.find?_cons_of_pos _ (by simpa using hid)]
      rfl
    · rw [if_neg hid, ih hrest]
      rw [List.find?_cons_of_neg _ (by simpa using hid)]

/-- The loop of `GetClientByID` after the header finds nothing when every row has a first
field and none is `id`. -/
theorem getClientByIDLoop_absent (id : String) (rows : List (List String))
    (h : ∀ row ∈ rows, ∃ f, row[0]? = some f ∧ f ≠ id) (i : Nat) :
    getClientByIDLoop id (i + 1) rows = some none := by
  induction rows generalizing i with
  | nil => simp [getClientByIDLoop]
  | cons row rest ih =>
    obtain ⟨f, hf, hne⟩ := h row (List.mem_cons_self _ _)
    rw [getClientByIDLoop, if_neg (Nat.succ_ne_zero i), hf]
    show (if f = id then _ else _) = _
    rw [if_neg hne]
    exact ih (fun r hr => h r (List.mem_cons_of_mem _ hr)) _

/-- The loop of `DeleteClient` after the header: it panics on a row without fields, and
otherwise keeps the rows whose first field is not `id`, in order, and sets `found` when
it drops one. -/
theorem deleteLoop_spec (id : String) (rows : List (List String)) (i : Nat)
    (acc : List (List String)) (found : Bool) :
    deleteLoop id (i + 1) rows acc found
      = if rows.all (fun r => !r.isEmpty) then
          some (acc ++ rows.filter (fun r => r[0]? != some id),
            found || rows.any (fun r => r[0]? == some id))
        else none := by
  induction rows generalizing i acc found with
  | nil => simp [deleteLoop]
  | cons row rest ih =>
    rw [deleteLoop, if_neg (Nat.succ_ne_zero i)]
    cases row with
    | nil => simp
    | cons f fs =>
      simp only [List.getElem?_cons_zero]
      by_cases hid : f = id
      · rw [if_neg (not_not.mpr hid), ih]
        simp [hid]
      · have hb : (f == id) = false := by simpa using hid
        rw [if_pos hid, ih]
        simp [hid, hb]

/-- The loop of `UpdateClient` after the header, when no row has `id` as first field:
the records are unchanged and `found` stays false. -/
theorem updateLoop_absent (id : String) (u : Client) (rows : List (List String))
    (h : ∀ row ∈ rows, ∃ f, row[0]? = some f ∧ f ≠ id) (i : Nat) :
    updateLoop id u (i + 1) rows = some (rows, false) := by
  induction rows generalizing i with
  | nil => simp [updateLoop]
  | cons row rest ih =>
    obtain ⟨f, hf, hne⟩ := h row (List.mem_cons_self _ _)
    rw [updateLoop, if_neg (Nat.succ_ne_zero i), hf]
    show (if f = id then _ else _) = _
    rw [if_neg hne, ih (fun r hr => h r (List.mem_cons_of_mem _ hr))]
    rfl

/-- The loop of `UpdateClient` after the header, when `row` is the first row with `id` as
first field: that row is replaced, in place. -/
theorem updateLoop_found (id : String) (u : Client) (pre : List (List String))
    (row : List String) (post : List (List String))
    (hpre : ∀ r ∈ pre, ∃ f, r[0]? = some f ∧ f ≠ id) (hrow : row[0]? = some id) (i : Nat) :
    updateLoop id u (i + 1) (pre ++ row :: post) = some (pre ++ rowOf id u :: post, true) := by
  induction pre generalizing i with
  | nil =>
    rw [List.nil_append, updateLoop, if_neg (Nat.succ_ne_zero i), hrow]
    show (if id = id then _ else _) = _
    rw [if_pos rfl]
    rfl
  | cons r rest ih =>
    obtain ⟨f, hf, hne⟩ := hpre r (List.mem_cons_self _ _)
    rw [List.cons_append, updateLoop, if_neg (Nat.succ_ne_zero i), hf]
    show (if f = id then _ else _) = _
    rw [if_neg hne, ih (fun x hx => hpre x (List.mem_cons_of_mem _ hx))]
    rfl

/-- A list with an element satisfying `p` splits at the first such element. -/
theorem split_at_first {α : Type} (p : α → Bool) (l : List α) (h : ∃ x ∈ l, p x = true) :
    ∃ pre x post, l = pre ++ x :: post ∧ (∀ y ∈ pre, p y = false) ∧ p x = true := by
  induction l with
  | nil => obtain ⟨x, hx, _⟩ := h; cases hx
  | cons a t ih =>
    by_cases ha : p a = true
    · exact ⟨[], a, t, rfl, by simp, ha⟩
    · have ht : ∃ x ∈ t, p x = true := by
        obtain ⟨x, hx, hpx⟩ := h
        rcases List.mem_cons.mp hx with rfl | hxt
        · exact absurd hpx ha
        · exact ⟨x, hxt, hpx⟩
      obtain ⟨pre, x, post, hl, hpre, hx⟩ := ih ht
      refine ⟨a :: pre, x, post, by rw [hl]; rfl, ?_, hx⟩
      intro y hy
      rcases List.mem_cons.mp hy with rfl | hyt
      · simpa using ha
      · exact hpre y hyt

/-- On float64 values that are not NaN, "not less than" is "greater than or equal". -/
theorem F64.not_lt_eq_ge (a b : F64) (ha : a.isNaN = false) (hb : b.isNaN = false) :
    (!F64.lt a b) = F64.ge a b := by
  cases a with
  | nan => simp [F64.isNaN] at ha
  | inf n1 =>
    cases b with
    | nan => simp [F64.isNaN] at hb
    | inf n2 => cases n1 <;> cases n2 <;> rfl
    | fin n2 m2 e2 => cases n1 <;> rfl
  | fin n1 m1 e1 =>
    cases b with
    | nan => simp [F64.isNaN] at hb
    | inf n2 => cases n2 <;> rfl
    | fin n2 m2 e2 =>
      simp only [F64.lt, F64.ge, F64.le, F64.aligned, min_comm e2 e1]
      rw [← decide_not]
      exact decide_eq_decide.mpr not_lt

/-- On float64 values that are not NaN, "not greater than" is "less than or equal". -/
theorem F64.not_gt_eq_le (a b : F64) (ha : a.isNaN = false) (hb : b.isNaN = false) :
    (!F64.gt a b) = F64.le a b :=
  F64.not_lt_eq_ge b a hb ha

/-- A comparison `<=` that holds has no NaN on either side. -/
theorem F64.not_nan_of_le (a b : F64) (h : F64.le a b = true) :
    a.isNaN = false ∧ b.isNaN = false := by
  cases a <;> cases b <;> simp [F64.le, F64.isNaN] at h ⊢

/-- A row in the inclusive range passes the filter of `GetClients`. -/
theorem passes_of_claimedPasses (lo hi : Option F64) (row : List String)
    (h : claimedPasses lo hi row = true) : passes lo hi row = true := by
  unfold claimedPasses at h
  unfold passes
  simp only [Bool.and_eq_true] at h ⊢
  obtain ⟨⟨hp, hlo⟩, hhi⟩ := h
  refine ⟨⟨hp, ?_⟩, ?_⟩
  · cases lo with
    | none => rfl
    | some b =>
      have hge : F64.ge (recordOf row).TotalInvestment b = true := hlo
      have hn := F64.not_nan_of_le _ _ hge
      show (!F64.lt (recordOf row).TotalInvestment b) = true
      rw [F64.not_lt_eq_ge _ _ hn.2 hn.1]
      exact hge
  · cases hi with
    | none => rfl
    | some b =>
      have hle : F64.le (recordOf row).TotalInvestment b = true := hhi
      have hn := F64.not_nan_of_le _ _ hle
      show (!F64.gt (recordOf row).TotalInvestment b) = true
      rw [F64.not_gt_eq_le _ _ hn.1 hn.2]
      exact hle

/-- Without NaN on either side, the filter of `GetClients` is the inclusive range test. -/
theorem passes_eq_claimedPasses (lo hi : Option F64) (row : List String)
    (hlo : ∀ b ∈ lo, b.isNaN = false) (hhi : ∀ b ∈ hi, b.isNaN = false)
    (hrow : (recordOf row).TotalInvestment.isNaN = false) :
    passes lo hi row = claimedPasses lo hi row := by
  unfold passes claimedPasses
  have h1 : (!lo.any (fun b => F64.lt (recordOf row).TotalInvestment b))
      = lo.all (fun b => F64.ge (recordOf row).TotalInvestment b) := by
    cases lo with
    | none => rfl
    | some b => exact F64.not_lt_eq_ge _ b hrow (hlo b rfl)
  have h2 : (!hi.any (fun b => F64.gt (recordOf row).TotalInvestment b))
      = hi.all (fun b => F64.le (recordOf row).TotalInvestment b) := by
    cases hi with
    | none => rfl
    | some b => exact F64.not_gt_eq_le _ b hrow (hhi b rfl)
  rw [h1, h2]

theorem exampleDisk_storeFile : StoreFile exampleDisk := by
  unfold StoreFile
  decide

/-! ## The claims -/

/-- C1 (amended): on a store file, `GetClients(min, max)` returns with no error, in file
order, exactly the records of the data rows whose amount parses and is neither `<` min nor
`>` max (bounds that are absent do not filter); `GetLendingClients` returns the same records.
When neither a bound nor an amount is NaN these are the rows with `min <= amount <= max`;
in any case every row with `min <= amount <= max` is returned, so a row whose amount equals
a bound is included. -/
theorem GetClients_returns_rows_in_range (d : Disk) (h : StoreFile d) (lo hi : Option F64) :
    ∃ s : Slice Client,
      GetClients d lo hi = some (s, none)
      ∧ s.toList = ((dataRows d).filter (passes lo hi)).map recordOf
      ∧ GetLendingClients d lo hi = some (s.map toLending, none)
      ∧ ((∀ b ∈ lo, b.isNaN = false) → (∀ b ∈ hi, b.isNaN = false)
          → (∀ row ∈ dataRows d, (recordOf row).TotalInvestment.isNaN = false)
          → s.toList = ((dataRows d).filter (claimedPasses lo hi)).map recordOf)
      ∧ (∀ row ∈ dataRows d, claimedPasses lo hi row = true → recordOf row ∈ s.toList) := by
  have heq := GetClients_eq d h.1 h.2.2 lo hi
  have hlist : (if (dataRows d).filter (passes lo hi) = [] then (Slice.null : Slice Client)
      else Slice.items (((dataRows d).filter (passes lo hi)).map recordOf)).toList
      = ((dataRows d).filter (passes lo hi)).map recordOf := by
    by_cases hnil : (dataRows d).filter (passes lo hi) = [] <;> simp [hnil, Slice.toList]
  refine ⟨_, heq, hlist, ?_, ?_, ?_⟩
  rotate_left
  · intro hlo hhi hrows
    have hfilter : (dataRows d).filter (passes lo hi)
        = (dataRows d).filter (claimedPasses lo hi) :=
      List.filter_congr (fun row hrow => passes_eq_claimedPasses lo hi row hlo hhi (hrows row hrow))
    rw [← hfilter]
    exact hlist
  · intro row hrow hclaimed
    rw [hlist]
    exact List.mem_map_of_mem _
      (List.mem_filter.mpr ⟨hrow, passes_of_claimedPasses lo hi row hclaimed⟩)
  · rw [GetLendingClients_eq, heq]; rfl

/-- C1, witness: the test file with both bounds at 20000; no NaN is involved, so the
records returned are those of the rows with `20000 <= amount <= 20000`. -/
theorem GetClients_returns_rows_in_range_witness :
    StoreFile exampleDisk
    ∧ ∃ s : Slice Client,
      GetClients exampleDisk (some twentyThousand) (some twentyThousand) = some (s, none)
      ∧ s.toList = ((dataRows exampleDisk).filter
          (passes (some twentyThousand) (some twentyThousand))).map recordOf
      ∧ GetLendingClients exampleDisk (some twentyThousand) (some twentyThousand)
          = some (s.map toLending, none)
      ∧ s.toList = ((dataRows exampleDisk).filter
          (claimedPasses (some twentyThousand) (some twentyThousand))).map recordOf
      ∧ (∀ row ∈ dataRows exampleDisk,
          claimedPasses (some twentyThousand) (some twentyThousand) row = true
            → recordOf row ∈ s.toList) :=
  ⟨exampleDisk_storeFile,
    (GetClients_returns_rows_in_range exampleDisk exampleDisk_storeFile
      (some twentyThousand) (some twentyThousand)).imp
      fun _ hs => ⟨hs.1, hs.2.1, hs.2.2.1,
        hs.2.2.2.1 (by simp [twentyThousand, F64.isNaN])
          (by simp [twentyThousand, F64.isNaN]) (by decide!),
        hs.2.2.2.2⟩⟩

/-- C1, counterexample: a data row whose amount is NaN is returned by `GetClients` with the
lower bound 1000, although `NaN >= 1000` is false. -/
theorem GetClients_returns_NaN_row :
    StoreFile nanDisk
    ∧ GetClients nanDisk (some oneThousand) none
        = some (Slice.items [⟨"1", "Ann", "ann@example.com", F64.nan⟩], none)
    ∧ ((dataRows nanDisk).filter (claimedPasses (some oneThousand) none)).map recordOf = [] := by
  refine ⟨?_, ?_, ?_⟩
  · unfold StoreFile; decide
  · decide!
  · decide!

/-- C2: on a store file, `GetClientByID(id)` returns with no error the record built from
the first data row whose first field is `id` (its ID, name, email and parsed amount), and
nil when no data row has it; the header row is not among the rows searched. -/
theorem GetClientByID_returns_first_match (d : Disk) (h : StoreFile d) (id : String) :
    GetClientByID d id
      = some (((dataRows d).find? (fun row => row[0]? == some id)).map recordOf, none) := by
  obtain ⟨hr, hne, h4⟩ := h
  unfold GetClientByID dataRows
  rw [hr]
  cases hrec : d.records with
  | nil => exact absurd hrec hne
  | cons hdr rows =>
    rw [hrec] at h4
    show (getClientByIDLoop id 0 (hdr :: rows)).map _ = _
    rw [getClientByIDLoop, if_pos rfl, getClientByIDLoop_spec id rows h4 0]
    rfl

/-- C2, witness: on the test file the id `id` of the header row finds nothing. -/
theorem GetClientByID_returns_first_match_witness :
    StoreFile exampleDisk
    ∧ GetClientByID exampleDisk "id"
      = some (((dataRows exampleDisk).find? (fun row => row[0]? == some "id")).map recordOf,
          none) :=
  ⟨exampleDisk_storeFile, GetClientByID_returns_first_match exampleDisk exampleDisk_storeFile "id"⟩

/-- C8 (amended): on a store file, `GetClients(nil, nil)` returns with no error the records
of the data rows whose amount parses, in file order; when the amount of each of the N data
rows parses, these are exactly N records, the i-th built from the i-th data row. -/
theorem GetClients_unfiltered (d : Disk) (h : StoreFile d) :
    ∃ s : Slice Client,
      GetClients d none none = some (s, none)
      ∧ s.toList = ((dataRows d).filter amountParses).map recordOf
      ∧ ((∀ row ∈ dataRows d, amountParses row = true)
          → s.toList = (dataRows d).map recordOf
            ∧ s.toList.length = (dataRows d).length) := by
  have heq := GetClients_eq d h.1 h.2.2 none none
  have hpass : passes none none = amountParses := by
    funext row; simp [passes]
  rw [hpass] at heq
  have hlist : (if (dataRows d).filter amountParses = [] then (Slice.null : Slice Client)
      else Slice.items (((dataRows d).filter amountParses).map recordOf)).toList
      = ((dataRows d).filter amountParses).map recordOf := by
    by_cases hnil : (dataRows d).filter amountParses = [] <;> simp [hnil, Slice.toList]
  refine ⟨_, heq, hlist, ?_⟩
  intro hall
  have hfilter : (dataRows d).filter amountParses = dataRows d :=
    List.filter_eq_self.mpr hall
  rw [hlist, hfilter]
  exact ⟨rfl, List.length_map _ _⟩

/-- C8, witness: the test file, whose three amounts parse: three records. -/
theorem GetClients_unfiltered_witness :
    StoreFile exampleDisk
    ∧ (∀ row ∈ dataRows exampleDisk, amountParses row = true)
    ∧ ∃ s : Slice Client,
      GetClients exampleDisk none none = some (s, none)
      ∧ s.toList = ((dataRows exampleDisk).filter amountParses).map recordOf
      ∧ s.toList = (dataRows exampleDisk).map recordOf
      ∧ s.toList.length = (dataRows exampleDisk).length :=
  ⟨exampleDisk_storeFile, by decide!,
    (GetClients_unfiltered exampleDisk exampleDisk_storeFile).imp
      fun _ hs => ⟨hs.1, hs.2.1, (hs.2.2 (by decide!)).1, (hs.2.2 (by decide!)).2⟩⟩

/-- C8, counterexample: a store file with one data row, whose amount is `n/a`; the call
`GetClients(nil, nil)` returns no record. -/
theorem GetClients_skips_unparsed_row :
    StoreFile unparsedDisk
    ∧ (dataRows unparsedDisk).length = 1
    ∧ GetClients unparsedDisk none none = some (Slice.null, none)
    ∧ (Slice.null : Slice Client).toList.length = 0 := by
  refine ⟨?_, ?_, ?_, ?_⟩
  · unfold StoreFile; decide
  · decide
  · decide!
  · decide

/-- C9 (amended): on a readable file with four-field data rows, when no data row passes the
filter (also when there is no data row), the GET collection handler responds 200 with
content type `application/json` and the body `null`: `GetClients` returns the nil slice,
which is encoded as `null`, not as `[]`. -/
theorem getClientsHandler_null_body (marshal : Client → Option String) (d : Disk)
    (hr : d.readErr = none) (h4 : ∀ row ∈ dataRows d, row.length = 4) (qmin qmax : String)
    (hnone : ∀ row ∈ dataRows d, passes (queryBound qmin) (queryBound qmax) row = false) :
    GetClients d (queryBound qmin) (queryBound qmax) = some (Slice.null, none)
    ∧ getClientsHandler marshal d qmin qmax = some ⟨200, some "application/json", "null\n"⟩ := by
  have hfilter : (dataRows d).filter (passes (queryBound qmin) (queryBound qmax)) = [] := by
    rw [List.filter_eq_nil_iff]
    intro row hrow
    simp [hnone row hrow]
  have heq := GetClients_eq d hr h4 (queryBound qmin) (queryBound qmax)
  rw [hfilter, if_pos rfl] at heq
  refine ⟨heq, ?_⟩
  unfold getClientsHandler
  simp only [heq]
  rfl

/-- C9, witness: a file with a header row only, and a query without bounds. -/
theorem getClientsHandler_null_body_witness :
    headerOnlyDisk.readErr = none
    ∧ (∀ row ∈ dataRows headerOnlyDisk, row.length = 4)
    ∧ (∀ row ∈ dataRows headerOnlyDisk, passes (queryBound "") (queryBound "") row = false)
    ∧ GetClients headerOnlyDisk (queryBound "") (queryBound "") = some (Slice.null, none)
    ∧ getClientsHandler (fun _ => none) headerOnlyDisk "" ""
        = some ⟨200, some "application/json", "null\n"⟩ :=
  ⟨rfl, by decide, by decide,
    getClientsHandler_null_body (fun _ => none) headerOnlyDisk rfl (by decide) "" ""
      (by decide)⟩

/-- C9, counterexample: on the test file with `minInvestment=400000` no row passes, and
the body of the response is `null`, not `[]`. -/
theorem getClientsHandler_body_not_empty_array :
    getClientsHandler (fun _ => none) exampleDisk "400000" ""
        = some ⟨200, some "application/json", "null\n"⟩
    ∧ getClientsHandler (fun _ => none) exampleDisk "400000" ""
        ≠ some ⟨200, some "application/json", "[]\n"⟩ := by
  refine ⟨by decide!, by decide!⟩

/-- A row with a first field other than `id`, in the form the loop lemmas use. -/
theorem first_field_ne (id : String) (row : List String) (hne : row ≠ [])
    (h : row[0]? ≠ some id) : ∃ f, row[0]? = some f ∧ f ≠ id := by
  cases row with
  | nil => exact absurd rfl hne
  | cons f fs =>
    refine ⟨f, List.getElem?_cons_zero, ?_⟩
    intro hf
    apply h
    rw [hf]
    exact List.getElem?_cons_zero

/-- C4: on a writable store file in which some data row has first field `id`, the call
`UpdateClient(id, u)` returns (true, no error), and the rows written are the original rows
with the first such data row replaced by `[id, u.Name, u.Email, "%.2f" of u's amount]`:
the id written is the argument, and the header, the other rows, their number and their
order are unchanged. -/
theorem UpdateClient_replaces_first_match (d : Disk) (h : StoreFile d)
    (hw : d.writeErr = none) (id : String) (u : Client)
    (hex : ∃ row ∈ dataRows d, row[0]? = some id) :
    ∃ hdr pre row post,
      d.records = hdr :: (pre ++ row :: post)
      ∧ (∀ r ∈ pre, r[0]? ≠ some id)
      ∧ row[0]? = some id
      ∧ UpdateClient d id u
          = some ((true, none),
              { d with records :=
                  hdr :: (pre ++ [id, u.Name, u.Email, fmt2 u.TotalInvestment] :: post) }) := by
  obtain ⟨hr, hne, h4⟩ := h
  unfold dataRows at hex
  cases hrec : d.records with
  | nil => exact absurd hrec hne
  | cons hdr rows =>
    rw [hrec] at h4 hex
    have hex' : ∃ row ∈ rows, (fun r : List String => r[0]? == some id) row = true := by
      obtain ⟨row, hrow, hid⟩ := hex
      exact ⟨row, hrow, by simp [hid]⟩
    obtain ⟨pre, row, post, hsplit, hpre, hrow⟩ := split_at_first _ rows hex'
    have hrow' : row[0]? = some id := by simpa using hrow
    have hpre' : ∀ r ∈ pre, r[0]? ≠ some id := by
      intro r hrm
      simpa using hpre r hrm
    have hpre'' : ∀ r ∈ pre, ∃ f, r[0]? = some f ∧ f ≠ id := by
      intro r hrm
      have hlen : r.length = 4 := h4 r (by rw [hsplit]; simp [hrm])
      have hrne : r ≠ [] := by
        intro hnil
        rw [hnil] at hlen
        cases hlen
      exact first_field_ne id r hrne (hpre' r hrm)
    refine ⟨hdr, pre, row, post, by rw [hsplit], hpre', hrow', ?_⟩
    unfold UpdateClient
    rw [hr, hrec]
    have hloop : updateLoop id u 0 (hdr :: rows)
        = some (hdr :: (pre ++ rowOf id u :: post), true) := by
      rw [updateLoop, if_pos rfl, hsplit, updateLoop_found id u pre row post hpre'' hrow' 0]
      rfl
    simp only [hloop, hw]
    rfl

/-- C4, witness: updating id `2` of the test file with a record whose own ID is `9`. -/
theorem UpdateClient_replaces_first_match_witness :
    StoreFile exampleDisk ∧ exampleDisk.writeErr = none
    ∧ (∃ row ∈ dataRows exampleDisk, row[0]? = some "2")
    ∧ ∃ hdr pre row post,
      exampleDisk.records = hdr :: (pre ++ row :: post)
      ∧ (∀ r ∈ pre, r[0]? ≠ some "2")
      ∧ row[0]? = some "2"
      ∧ UpdateClient exampleDisk "2" ⟨"9", "Bobby", "bobby@example.com", twentyThousand⟩
          = some ((true, none),
              { exampleDisk with records :=
                  hdr :: (pre ++ ["2", (⟨"9", "Bobby", "bobby@example.com", twentyThousand⟩ :
                      Client).Name,
                    (⟨"9", "Bobby", "bobby@example.com", twentyThousand⟩ : Client).Email,
                    fmt2 (⟨"9", "Bobby", "bobby@example.com", twentyThousand⟩ :
                      Client).TotalInvestment] :: post) }) :=
  ⟨exampleDisk_storeFile, rfl, by decide,
    UpdateClient_replaces_first_match exampleDisk exampleDisk_storeFile rfl "2"
      ⟨"9", "Bobby", "bobby@example.com", twentyThousand⟩ (by decide)⟩

/-- C5 (amended): on a writable store file in which some data row has first field `id`,
the call `DeleteClient(id)` returns (true, no error), and the rows written are the header
followed by the data rows whose first field is not `id`, in their original order: every
data row with that id is removed; when only one data row has it, exactly that row is. -/
theorem DeleteClient_removes_rows_with_id (d : Disk) (h : StoreFile d)
    (hw : d.writeErr = none) (id : String) (hex : ∃ row ∈ dataRows d, row[0]? = some id) :
    ∃ hdr rows,
      d.records = hdr :: rows
      ∧ DeleteClient d id
          = some ((true, none),
              { d with records := hdr :: rows.filter (fun r => r[0]? != some id) })
      ∧ (∀ pre row post, rows = pre ++ row :: post → (∀ r ∈ pre ++ post, r[0]? ≠ some id)
          → hdr :: rows.filter (fun r => r[0]? != some id) = hdr :: (pre ++ post)) := by
  obtain ⟨hr, hne, h4⟩ := h
  unfold dataRows at hex
  cases hrec : d.records with
  | nil => exact absurd hrec hne
  | cons hdr rows =>
    rw [hrec] at h4 hex
    have hall : rows.all (fun r => !r.isEmpty) = true := by
      rw [List.all_eq_true]
      intro r hrm
      have hlen : r.length = 4 := h4 r hrm
      cases r with
      | nil => cases hlen
      | cons f fs => rfl
    have hany : rows.any (fun r => r[0]? == some id) = true := by
      rw [List.any_eq_true]
      obtain ⟨row, hrow, hid⟩ := hex
      exact ⟨row, hrow, by simp [hid]⟩
    refine ⟨hdr, rows, rfl, ?_, ?_⟩
    · unfold DeleteClient
      rw [hr, hrec]
      have hloop : deleteLoop id 0 (hdr :: rows) [] false
          = some (hdr :: rows.filter (fun r => r[0]? != some id), true) := by
        rw [deleteLoop, if_pos rfl, deleteLoop_spec, if_pos hall, hany]
        rfl
      simp only [hloop, hw]
      rfl
    · intro pre row post hsplit hothers
      have hkeep : ∀ l : List (List String), (∀ r ∈ l, r[0]? ≠ some id)
          → l.filter (fun r => r[0]? != some id) = l := by
        intro l hl
        rw [List.filter_eq_self]
        intro r hrm
        simpa using hl r hrm
      have hrow : row[0]? = some id := by
        obtain ⟨x, hx, hid⟩ := hex
        rw [hsplit] at hx
        rcases List.mem_append.mp hx with hxp | hxq
        · exact absurd hid (hothers x (List.mem_append_left _ hxp))
        · rcases List.mem_cons.mp hxq with rfl | hxpost
          · exact hid
          · exact absurd hid (hothers x (List.mem_append_right _ hxpost))
      rw [hsplit, List.filter_append, List.filter_cons_of_neg (by simp [hrow]),
        hkeep pre (fun r hrm => hothers r (List.mem_append_left _ hrm)),
        hkeep post (fun r hrm => hothers r (List.mem_append_right _ hrm))]

/-- C5, witness: deleting id `2` from the test file. -/
theorem DeleteClient_removes_rows_with_id_witness :
    StoreFile exampleDisk ∧ exampleDisk.writeErr = none
    ∧ (∃ row ∈ dataRows exampleDisk, row[0]? = some "2")
    ∧ ∃ hdr rows,
      exampleDisk.records = hdr :: rows
      ∧ DeleteClient exampleDisk "2"
          = some ((true, none),
              { exampleDisk with records := hdr :: rows.filter (fun r => r[0]? != some "2") })
      ∧ (∀ pre row post, rows = pre ++ row :: post → (∀ r ∈ pre ++ post, r[0]? ≠ some "2")
          → hdr :: rows.filter (fun r => r[0]? != some "2") = hdr :: (pre ++ post)) :=
  ⟨exampleDisk_storeFile, rfl, by decide,
    DeleteClient_removes_rows_with_id exampleDisk exampleDisk_storeFile rfl "2" (by decide)⟩

/-- C5, counterexample: in a file where two of the three data rows have the id `1`, the
call `DeleteClient("1")` removes both: of four rows, two are left. -/
theorem DeleteClient_removes_both_duplicates :
    StoreFile duplicateDisk
    ∧ duplicateDisk.records.length = 4
    ∧ DeleteClient duplicateDisk "1"
        = some ((true, none),
            ⟨none, none, [exampleHeader, ["2", "Bob", "bob@example.com", "20.00"]]⟩) := by
  refine ⟨?_, ?_, ?_⟩
  · unfold StoreFile; decide
  · decide
  · decide

/-- C6: on a readable file (each row has at least one field, as the csv reader ensures)
in which no data row has first field `id`, the calls `UpdateClient(id, u)` and
`DeleteClient(id)` each return (false, no error) and leave the file as it is, whether or
not it could have been written; the first field of the header row is not looked at. -/
theorem Update_Delete_absent_id (d : Disk) (hr : d.readErr = none)
    (hrows : ∀ row ∈ dataRows d, row ≠ []) (id : String) (u : Client)
    (hno : ∀ row ∈ dataRows d, row[0]? ≠ some id) :
    UpdateClient d id u = some ((false, none), d)
    ∧ DeleteClient d id = some ((false, none), d) := by
  unfold dataRows at hrows hno
  unfold UpdateClient DeleteClient
  rw [hr]
  cases hrec : d.records with
  | nil => exact ⟨rfl, rfl⟩
  | cons hdr rows =>
    rw [hrec] at hrows hno
    have habs : ∀ row ∈ rows, ∃ f, row[0]? = some f ∧ f ≠ id :=
      fun row hrow => first_field_ne id row (hrows row hrow) (hno row hrow)
    have hall : rows.all (fun r => !r.isEmpty) = true := by
      rw [List.all_eq_true]
      intro r hrm
      have hne := hrows r hrm
      cases r with
      | nil => exact absurd rfl hne
      | cons f fs => rfl
    have hany : rows.any (fun r => r[0]? == some id) = false := by
      rw [List.any_eq_false]
      intro r hrm
      simpa using hno r hrm
    have hupd : updateLoop id u 0 (hdr :: rows) = some (hdr :: rows, false) := by
      rw [updateLoop, if_pos rfl, updateLoop_absent id u rows habs 0]
      rfl
    have hdel : deleteLoop id 0 (hdr :: rows) [] false
        = some (hdr :: rows.filter (fun r => r[0]? != some id), false) := by
      rw [deleteLoop, if_pos rfl, deleteLoop_spec, if_pos hall, hany]
      rfl
    simp only [hupd, hdel]
    exact ⟨rfl, rfl⟩

/-- C6, witness: the id `id` on the test file, which only the header row carries. -/
theorem Update_Delete_absent_id_witness :
    exampleDisk.readErr = none
    ∧ (∀ row ∈ dataRows exampleDisk, row ≠ [])
    ∧ (∀ row ∈ dataRows exampleDisk, row[0]? ≠ some "id")
    ∧ UpdateClient exampleDisk "id" ⟨"id", "Zed", "zed@example.com", oneThousand⟩
        = some ((false, none), exampleDisk)
    ∧ DeleteClient exampleDisk "id" = some ((false, none), exampleDisk) :=
  ⟨rfl, by decide, by decide,
    Update_Delete_absent_id exampleDisk rfl (by decide) "id"
      ⟨"id", "Zed", "zed@example.com", oneThousand⟩ (by decide)⟩

/-- C10: the registrations of the lending `main` complete, with two patterns; those of the
investment `main` panic, at the second registration of `/clients`, so that it does not
reach `http.ListenAndServe`. -/
theorem investment_main_registers_clients_twice :
    registerAll lendingPatterns = some ["/lending-clients", "/lending-clients/"]
    ∧ HandleFunc ["/clients", "/clients/"] "/clients" = none
    ∧ registerAll investmentPatterns = none := by
  refine ⟨by decide, by decide, by decide⟩

/-! ## Writing an amount with `%.2f` and parsing it back -/

theorem digitChar_mem (k : Nat) (h : k < 10) : Nat.digitChar k ∈ decimalDigits := by
  interval_cases k <;> decide

theorem digitChar_val (k : Nat) (h : k < 10) : (Nat.digitChar k).toNat - 48 = k := by
  interval_cases k <;> rfl

theorem decimalDigits_facts : ∀ c ∈ decimalDigits,
    c.isDigit = true ∧ c ≠ '_' ∧ c ≠ '.' ∧ c ≠ '+' ∧ c ≠ '-' ∧ lower c ≠ 'x'
    ∧ c ≠ 'i' ∧ c ≠ 'I' ∧ c ≠ 'n' ∧ c ≠ 'N'
    ∧ (if 'A' ≤ c ∧ c ≤ 'Z' then Char.ofNat (c.toNat + 32) else c) ≠ 'i' := by
  decide

theorem toDigitsCore_mem (fuel n : Nat) (ds : List Char) (h : ∀ c ∈ ds, c ∈ decimalDigits) :
    ∀ c ∈ Nat.toDigitsCore 10 fuel n ds, c ∈ decimalDigits := by
  induction fuel generalizing n ds with
  | zero => simpa [Nat.toDigitsCore] using h
  | succ fuel ih =>
    have hcons : ∀ c ∈ Nat.digitChar (n % 10) :: ds, c ∈ decimalDigits := by
      intro c hc
      rcases List.mem_cons.mp hc with rfl | hc
      · exact digitChar_mem _ (Nat.mod_lt _ (by norm_num))
      · exact h c hc
    unfold Nat.toDigitsCore
    dsimp only
    split_ifs
    · exact hcons
    · exact ih _ _ hcons

theorem toDigitsCore_val (fuel n : Nat) (ds : List Char) (h : n < fuel) :
    (Nat.toDigitsCore 10 fuel n ds).foldl pushDigit 0 = ds.foldl pushDigit n := by
  induction fuel generalizing n ds with
  | zero => omega
  | succ fuel ih =>
    have hd : pushDigit (n / 10) (Nat.digitChar (n % 10)) = n := by
      unfold pushDigit
      rw [digitChar_val _ (Nat.mod_lt _ (by norm_num))]
      omega
    unfold Nat.toDigitsCore
    dsimp only
    split_ifs with h0
    · rw [List.foldl_cons]
      have hd0 := hd
      rw [h0] at hd0
      rw [hd0]
    · rw [ih (n / 10) _ (by omega), List.foldl_cons, hd]

theorem toDigitsCore_ne_nil (fuel n : Nat) (ds : List Char) (h : ds ≠ []) :
    Nat.toDigitsCore 10 fuel n ds ≠ [] := by
  induction fuel generalizing n ds with
  | zero => simpa [Nat.toDigitsCore] using h
  | succ fuel ih =>
    unfold Nat.toDigitsCore
    dsimp only
    split_ifs
    · exact List.cons_ne_nil _ _
    · exact ih _ _ (List.cons_ne_nil _ _)

/-- The decimal digits of `n`: a non-empty list of digit characters whose value is `n`. -/
theorem toDigits_spec (n : Nat) :
    ∃ c t, Nat.toDigits 10 n = c :: t ∧ (∀ x ∈ c :: t, x ∈ decimalDigits)
      ∧ (c :: t).foldl pushDigit 0 = n := by
  have hne : Nat.toDigits 10 n ≠ [] := by
    unfold Nat.toDigits Nat.toDigitsCore
    dsimp only
    split_ifs
    · exact List.cons_ne_nil _ _
    · exact toDigitsCore_ne_nil _ _ _ (List.cons_ne_nil _ _)
  have hmem : ∀ x ∈ Nat.toDigits 10 n, x ∈ decimalDigits :=
    toDigitsCore_mem _ _ _ (by simp)
  have hval : (Nat.toDigits 10 n).foldl pushDigit 0 = n := by
    unfold Nat.toDigits
    rw [toDigitsCore_val _ _ _ (Nat.lt_succ_self n)]
    rfl
  cases hD : Nat.toDigits 10 n with
  | nil => exact absurd hD hne
  | cons c t =>
    rw [hD] at hmem hval
    exact ⟨c, t, rfl, hmem, hval⟩

/-- The mantissa loop over a run of decimal digits. -/
theorem scanMantissa_digits (ds : List Char) (h : ∀ c ∈ ds, c ∈ decimalDigits)
    (rest : List Char) (st : Mantissa) :
    scanMantissa 10 (ds ++ rest) st
      = scanMantissa 10 rest
          ⟨ds.foldl pushDigit st.value, if st.sawdot then st.frac + ds.length else st.frac,
            st.sawdot, st.sawdigits || !ds.isEmpty, st.underscores⟩ := by
  induction ds generalizing st with
  | nil => cases st; simp
  | cons c t ih =>
    obtain ⟨hdig, hus, hdot, -⟩ := decimalDigits_facts c (h c (List.mem_cons_self _ _))
    rw [List.cons_append, scanMantissa, if_neg hus, if_neg hdot, if_pos hdig,
      ih (fun x hx => h x (List.mem_cons_of_mem _ hx))]
    cases st with
    | mk v f sd sg u =>
      cases sd <;> simp [pushDigit, Nat.add_assoc, Nat.add_comm 1]

namespace F64

theorem bitLenAux_spec (fuel n : Nat) (h : n ≤ fuel) :
    (n = 0 ∧ bitLenAux fuel n = 0)
    ∨ (0 < bitLenAux fuel n ∧ 2 ^ (bitLenAux fuel n - 1) ≤ n ∧ n < 2 ^ bitLenAux fuel n) := by
  induction fuel generalizing n with
  | zero =>
    left
    exact ⟨Nat.le_zero.mp h, rfl⟩
  | succ fuel ih =>
    by_cases hn : n = 0
    · left
      exact ⟨hn, by simp [bitLenAux, hn]⟩
    · right
      have hstep : bitLenAux (fuel + 1) n = bitLenAux fuel (n / 2) + 1 := by
        simp [bitLenAux, hn]
      rw [hstep]
      have hhalf : n / 2 ≤ fuel := by omega
      rcases ih (n / 2) hhalf with ⟨h0, hb⟩ | ⟨hpos, hlo, hhi⟩
      · rw [hb]
        have h1 : n = 1 := by omega
        subst h1
        simp
      · refine ⟨Nat.succ_pos _, ?_, ?_⟩
        · have hpow : 2 ^ (bitLenAux fuel (n / 2) + 1 - 1)
              = 2 ^ (bitLenAux fuel (n / 2) - 1) * 2 := by
            rw [Nat.add_sub_cancel, ← Nat.pow_succ]
            congr 1
            omega
          rw [hpow]
          omega
        · rw [Nat.pow_succ]
          omega

theorem bitLen_unique (n L : Nat) (hL : 0 < L) (h1 : 2 ^ (L - 1) ≤ n) (h2 : n < 2 ^ L) :
    bitLen n = L := by
  have hn : n ≠ 0 := by
    have : 0 < 2 ^ (L - 1) := Nat.two_pow_pos _
    omega
  rcases bitLenAux_spec n n (le_refl n) with ⟨h0, _⟩ | ⟨hpos, hlo, hhi⟩
  · exact absurd h0 hn
  · unfold bitLen
    have ha : L - 1 < bitLenAux n n :=
      (Nat.pow_lt_pow_iff_right (by norm_num : 1 < 2)).mp (lt_of_le_of_lt h1 hhi)
    have hb : bitLenAux n n - 1 < L :=
      (Nat.pow_lt_pow_iff_right (by norm_num : 1 < 2)).mp (lt_of_le_of_lt hlo h2)
    omega

theorem bitLen_bounds (n : Nat) (hn : 0 < n) :
    0 < bitLen n ∧ 2 ^ (bitLen n - 1) ≤ n ∧ n < 2 ^ bitLen n := by
  rcases bitLenAux_spec n n (le_refl n) with ⟨h0, _⟩ | h
  · omega
  · exact h

theorem bitLen_mul_pow (m k : Nat) (hm : 0 < m) : bitLen (m * 2 ^ k) = bitLen m + k := by
  obtain ⟨hpos, hlo, hhi⟩ := bitLen_bounds m hm
  apply bitLen_unique
  · omega
  · have : bitLen m + k - 1 = (bitLen m - 1) + k := by omega
    rw [this, Nat.pow_add]
    exact Nat.mul_le_mul_right _ hlo
  · rw [Nat.pow_add]
    exact Nat.mul_lt_mul_of_pos_right hhi (Nat.two_pow_pos _)

theorem bitLen_le_of_lt (m L : Nat) (h : m < 2 ^ L) : bitLen m ≤ L := by
  by_cases hm : m = 0
  · subst hm
    simp [bitLen, bitLenAux]
  · obtain ⟨hpos, hlo, _⟩ := bitLen_bounds m (Nat.pos_of_ne_zero hm)
    have : bitLen m - 1 < L :=
      (Nat.pow_lt_pow_iff_right (by norm_num : 1 < 2)).mp (lt_of_le_of_lt hlo h)
    omega

theorem roundEven_exact (d q : Nat) (hd : 0 < d) : roundEven (d * q) d = q := by
  unfold roundEven
  have hq : d * q / d = q := Nat.mul_div_cancel_left q hd
  have hr : d * q % d = 0 := Nat.mul_mod_right d q
  simp only [hq, hr]
  rw [if_neg]
  omega

theorem stripTwos_pow (m k : Nat) (hm : m % 2 = 1) (fuel : Nat) (hf : k ≤ fuel) (e : Int) :
    stripTwos fuel (m * 2 ^ k) e = (m, e + k) := by
  induction k generalizing fuel e with
  | zero =>
    cases fuel with
    | zero => simp [stripTwos]
    | succ f =>
      simp only [stripTwos, pow_zero, mul_one]
      rw [if_neg]
      · simp
      · omega
  | succ k ih =>
    cases fuel with
    | zero => omega
    | succ f =>
      have hmpos : 0 < m := by omega
      have heven : m * 2 ^ (k + 1) % 2 = 0 := by
        rw [Nat.pow_succ, ← Nat.mul_assoc]
        exact Nat.mul_mod_left _ _
      have hne : m * 2 ^ (k + 1) ≠ 0 :=
        Nat.ne_of_gt (Nat.mul_pos hmpos (Nat.two_pow_pos _))
      have hdiv : m * 2 ^ (k + 1) / 2 = m * 2 ^ k := by
        rw [Nat.pow_succ, ← Nat.mul_assoc]
        exact Nat.mul_div_cancel _ (by norm_num)
      rw [stripTwos, if_pos ⟨heven, hne⟩, hdiv, ih f (by omega)]
      congr 1
      push_cast
      ring


theorem roundToF64_exact (neg : Bool) (m : Nat) (e : Int) (n d : Nat)
    (hm1 : m % 2 = 1) (hm53 : m < 2 ^ 53) (he : -1074 ≤ e)
    (hmax : (bitLen m : Int) + e ≤ 1024) (hd : 0 < d)
    (hval : n * 2 ^ 1074 = d * (m * 2 ^ (e + 1074).toNat)) :
    roundToF64 neg n d = (fin neg m e, false) := by
  have hmpos : 0 < m := by omega
  obtain ⟨k, hk⟩ : ∃ k : Nat, (k : Int) = e + 1074 := ⟨(e + 1074).toNat, by omega⟩
  have hkn : (e + 1074).toNat = k := by omega
  rw [hkn] at hval
  have hlen : bitLen m ≤ 53 := bitLen_le_of_lt m 53 hm53
  have hq : n * 2 ^ 1074 / d = m * 2 ^ k := by
    rw [hval]; exact Nat.mul_div_cancel_left _ hd
  have hbl : bitLen (m * 2 ^ k) = bitLen m + k := bitLen_mul_pow m k hmpos
  obtain ⟨j, hj⟩ : ∃ j : Nat, k = (bitLen m + k - 53) + j := ⟨k - (bitLen m + k - 53), by omega⟩
  generalize hs : bitLen m + k - 53 = s at hj
  have hsplit : d * (m * 2 ^ k) = d * 2 ^ s * (m * 2 ^ j) := by
    rw [hj, Nat.pow_add]; ring
  have hmant : roundEven (n * 2 ^ 1074) (d * 2 ^ s) = m * 2 ^ j := by
    rw [hval, hsplit]
    exact roundEven_exact _ _ (Nat.mul_pos hd (Nat.two_pow_pos _))
  have hprod : m * 2 ^ j * 2 ^ s = m * 2 ^ k := by
    rw [hj, Nat.pow_add]; ring
  have hsmall : ¬ 2 ^ 2098 ≤ m * 2 ^ k := by
    have h1 : m < 2 ^ bitLen m := (bitLen_bounds m hmpos).2.2
    have h2 : m * 2 ^ k < 2 ^ bitLen m * 2 ^ k :=
      Nat.mul_lt_mul_of_pos_right h1 (Nat.two_pow_pos _)
    have hsum : bitLen m + k ≤ 2098 := by
      clear hval hq hsplit hmant hprod
      omega
    have h3 : 2 ^ bitLen m * 2 ^ k ≤ 2 ^ 2098 := by
      rw [← Nat.pow_add]
      exact Nat.pow_le_pow_right (by norm_num) hsum
    exact Nat.not_le.mpr (lt_of_lt_of_le h2 h3)
  have hne : m * 2 ^ j ≠ 0 := Nat.ne_of_gt (Nat.mul_pos hmpos (Nat.two_pow_pos _))
  have hfuel : j ≤ m * 2 ^ j := by
    have h1 : j < 2 ^ j := Nat.lt_two_pow j
    have h2 : 2 ^ j ≤ m * 2 ^ j := Nat.le_mul_of_pos_left _ hmpos
    exact le_trans (Nat.le_of_lt h1) h2
  have hstrip : stripTwos (m * 2 ^ j) (m * 2 ^ j) ((s : Int) - 1074) = (m, e) := by
    have hexp : (s : Int) - 1074 + (j : Nat) = e := by
      clear hval hq hsplit hmant hprod hsmall
      omega
    rw [stripTwos_pow m j hm1 _ hfuel, hexp]
  unfold roundToF64
  simp only [hq, hbl, hs, hmant, hprod, if_neg hsmall, if_neg hne, hstrip]


end F64

theorem special_digit (c : Char) (t : List Char) (h : c ∈ decimalDigits) :
    special (c :: t) = none := by
  obtain ⟨-, -, -, hp, hm, -, hi, hI, hn, hN, -⟩ := decimalDigits_facts c h
  simp [special, hp, hm, hi, hI, hn, hN]

theorem special_minus_digit (c : Char) (t : List Char) (h : c ∈ decimalDigits) :
    special ('-' :: c :: t) = none := by
  obtain ⟨-, -, -, -, -, -, -, -, -, -, hlow⟩ := decimalDigits_facts c h
  have hcp : commonPrefixLenIgnoreCase (c :: t) "infinity".toList = 0 := by
    show commonPrefixLenIgnoreCase (c :: t) ('i' :: "nfinity".toList) = 0
    rw [commonPrefixLenIgnoreCase]
    exact if_neg hlow
  have hinf : infLen (c :: t) = none := by
    unfold infLen
    rw [hcp]
    rfl
  simp [special, hinf]

theorem readSign_digit (c : Char) (t : List Char) (h : c ∈ decimalDigits) :
    readSign (c :: t) = (false, c :: t) := by
  obtain ⟨-, -, -, hp, hm, -⟩ := decimalDigits_facts c h
  rw [readSign, if_neg hp, if_neg hm]

theorem readBase_decimal (c0 c1 : Char) (t : List Char) (h : lower c1 ≠ 'x') :
    readBase (c0 :: c1 :: t) = (false, c0 :: c1 :: t) := by
  cases t with
  | nil => rfl
  | cons c2 u =>
    rw [readBase, if_neg]
    exact fun hx => h hx.2


/-- What the prefix and mantissa stages of `readFloat` make of the digits `fmt2` writes. -/
theorem readFloat_fixedDigits (k : Nat) :
    ∃ c t, fixedDigits k = c :: t ∧ c ∈ decimalDigits
      ∧ readBase (c :: t) = (false, c :: t)
      ∧ scanMantissa 10 (c :: t) ⟨0, 0, false, false, false⟩
          = (⟨k, 2, true, true, false⟩, []) := by
  obtain ⟨c, t, hD, hmem, hval⟩ := toDigits_spec (k / 100)
  have h1 := digitChar_mem (k % 100 / 10) (by omega)
  have h2 := digitChar_mem (k % 10) (by omega)
  have hfix : fixedDigits k
      = c :: (t ++ ['.', Nat.digitChar (k % 100 / 10), Nat.digitChar (k % 10)]) := by
    unfold fixedDigits
    rw [hD]
    rfl
  refine ⟨c, _, hfix, hmem c (List.mem_cons_self _ _), ?_, ?_⟩
  · cases t with
    | nil => exact readBase_decimal _ _ _ (by decide)
    | cons c1 u =>
      exact readBase_decimal _ _ _
        (decimalDigits_facts c1 (hmem c1 (by simp))).2.2.2.2.2.1
  · have hsplit : c :: (t ++ ['.', Nat.digitChar (k % 100 / 10), Nat.digitChar (k % 10)])
        = (c :: t) ++ ('.' :: ([Nat.digitChar (k % 100 / 10), Nat.digitChar (k % 10)] ++ [])) := by
      simp
    rw [hsplit, scanMantissa_digits (c :: t) hmem, hval, scanMantissa, if_neg (by decide),
      if_pos rfl]
    dsimp only
    rw [if_neg (by simp), scanMantissa_digits _ (by
      intro x hx
      rcases List.mem_cons.mp hx with rfl | hx
      · exact h1
      · rcases List.mem_cons.mp hx with rfl | hx
        · exact h2
        · cases hx)]
    simp only [scanMantissa, List.foldl_cons, List.foldl_nil, pushDigit,
      digitChar_val _ (show k % 100 / 10 < 10 by omega),
      digitChar_val _ (show k % 10 < 10 by omega)]
    have hk : (k / 100 * 10 + k % 100 / 10) * 10 + k % 10 = k := by omega
    simp [hk]

/-- Parsing what `fmt2` writes for a finite value: the hundredths, divided by a hundred and
rounded to the nearest float64. -/
theorem parseFloat_fmt2_fin (neg : Bool) (m : Nat) (e : Int) :
    parseFloat (fmt2 (F64.fin neg m e))
      = ((F64.roundToF64 neg (hundredths m e) (10 ^ 2)).1,
          if (F64.roundToF64 neg (hundredths m e) (10 ^ 2)).2 then some NumError.outOfRange
          else none) := by
  obtain ⟨c, t, hfix, hc, hbase, hscan⟩ := readFloat_fixedDigits (hundredths m e)
  have hlist : (fmt2 (F64.fin neg m e)).toList = (if neg then ['-'] else []) ++ c :: t := by
    rw [← hfix]
    cases neg <;> rfl
  have hspecial : special ((if neg then ['-'] else []) ++ c :: t) = none := by
    cases neg
    · exact special_digit c t hc
    · exact special_minus_digit c t hc
  have hsign : readSign ((if neg then ['-'] else []) ++ c :: t) = (neg, c :: t) := by
    cases neg
    · exact readSign_digit c t hc
    · rfl
  have hread : readFloat ((if neg then ['-'] else []) ++ c :: t)
      = some ⟨neg, false, hundredths m e, 0 - 2⟩ := by
    unfold readFloat
    simp only [hsign, hbase, Bool.false_eq_true, if_false, hscan]
    simp
  have hexp : (-(0 - 2 : Int)).toNat = 2 := by decide
  have hval : (⟨neg, false, hundredths m e, 0 - 2⟩ : Literal).toF64
      = F64.roundToF64 neg (hundredths m e) (10 ^ 2) := by
    unfold Literal.toF64
    simp only [Bool.false_eq_true, if_false]
    rw [if_neg (by decide), hexp]
  unfold parseFloat
  rw [hlist, hspecial]
  simp only [hread, hval]


theorem F64.roundToF64_zero (neg : Bool) (d : Nat) (hd : 0 < d) :
    F64.roundToF64 neg 0 d = (F64.fin neg 0 0, false) := by
  have hb : F64.bitLen 0 = 0 := rfl
  have hr : F64.roundEven 0 (d * 2 ^ 0) = 0 := by
    have := F64.roundEven_exact (d * 2 ^ 0) 0 (by simpa using hd)
    simpa using this
  unfold F64.roundToF64
  simp only [Nat.zero_mul, Nat.zero_div, hb, Nat.zero_sub, hr]
  rw [if_neg (Nat.not_le.mpr (Nat.two_pow_pos _))]
  exact if_pos trivial

/-- The hundredths of a value with at most two decimal digits are exact. -/
theorem hundredths_exact (m : Nat) (e : Int) (he : -1074 ≤ e)
    (h2 : 0 ≤ e ∨ 2 ^ (-e).toNat ∣ m * 100) :
    hundredths m e * 2 ^ 1074 = 10 ^ 2 * (m * 2 ^ (e + 1074).toNat) := by
  unfold hundredths
  by_cases hpos : 0 ≤ e
  · rw [if_pos hpos]
    obtain ⟨k, hk⟩ : ∃ k : Nat, e = k := ⟨e.toNat, by omega⟩
    have h1 : e.toNat = k := by omega
    have h3 : (e + 1074).toNat = k + 1074 := by omega
    rw [h1, h3, Nat.pow_add]
    ring
  · rw [if_neg hpos]
    have hdiv : 2 ^ (-e).toNat ∣ m * 100 := by
      rcases h2 with h | h
      · exact absurd h hpos
      · exact h
    obtain ⟨p, hp⟩ : ∃ p : Nat, (-e).toNat = p := ⟨_, rfl⟩
    obtain ⟨j, hj⟩ : ∃ j : Nat, (e + 1074).toNat = j := ⟨_, rfl⟩
    have hpj : p + j = 1074 := by omega
    rw [hp] at hdiv
    rw [hp, hj]
    obtain ⟨q, hq⟩ := hdiv
    rw [hq, F64.roundEven_exact _ _ (Nat.two_pow_pos _)]
    have hm : m * 2 ^ j * 100 = 2 ^ p * q * 2 ^ j / 1 := by
      rw [Nat.div_one, ← hq]; ring
    have hpow : (2 : Nat) ^ 1074 = 2 ^ p * 2 ^ j := by
      rw [← Nat.pow_add, hpj]
    rw [hpow]
    have hq' : 2 ^ p * q = m * 100 := hq.symm
    calc q * (2 ^ p * 2 ^ j) = (2 ^ p * q) * 2 ^ j := by ring
      _ = m * 100 * 2 ^ j := by rw [hq']
      _ = 10 ^ 2 * (m * 2 ^ j) := by ring

/-- Writing a float64 with at most two decimal digits by `%.2f` and parsing the text gives
the float64 back, with no error. -/
theorem parseFloat_fmt2_roundtrip (x : F64) (hx : x.isFloat64 = true)
    (h2 : hasTwoDecimals x = true) : parseFloat (fmt2 x) = (x, none) := by
  cases x with
  | nan => simp [hasTwoDecimals] at h2
  | inf n => simp [hasTwoDecimals] at h2
  | fin neg m e =>
    rw [parseFloat_fmt2_fin]
    change (if m = 0 then decide (e = 0)
      else decide (m % 2 = 1 ∧ m < 2 ^ 53 ∧ -1074 ≤ e ∧ (F64.bitLen m : Int) + e ≤ 1024))
      = true at hx
    change decide (0 ≤ e ∨ 2 ^ (-e).toNat ∣ m * 100) = true at h2
    by_cases hm : m = 0
    · rw [if_pos hm] at hx
      have he : e = 0 := of_decide_eq_true hx
      subst hm he
      have hh : hundredths 0 0 = 0 := by decide
      rw [hh, F64.roundToF64_zero neg _ (by norm_num)]
      rfl
    · rw [if_neg hm] at hx
      obtain ⟨hodd, h53, hlo, hhi⟩ := of_decide_eq_true hx
      have hdec := of_decide_eq_true h2
      rw [F64.roundToF64_exact neg m e _ _ hodd h53 hlo hhi (by norm_num)
        (hundredths_exact m e hlo hdec)]
      rfl

namespace F64

/-- The rounded quotient is within half a unit of the exact quotient. -/
theorem roundEven_bounds (n d : Nat) (hd : 0 < d) :
    2 * n ≤ 2 * (roundEven n d * d) + d ∧ 2 * (roundEven n d * d) ≤ 2 * n + d := by
  have hn : d * (n / d) + n % d = n := Nat.div_add_mod n d
  have hr : n % d < d := Nat.mod_lt n hd
  unfold roundEven
  dsimp only
  generalize n / d = q at hn ⊢
  generalize n % d = r at hn hr ⊢
  subst hn
  split_ifs with hc
  · have h2 : d ≤ 2 * r := by
      rcases hc with h | ⟨h, _⟩
      · exact Nat.le_of_lt h
      · exact Nat.le_of_eq h.symm
    constructor <;> nlinarith
  · have h2 : 2 * r ≤ d := by
      by_contra hlt
      exact hc (Or.inl (Nat.lt_of_not_le hlt))
    constructor <;> nlinarith

/-- An integer strictly within half a unit of the exact quotient is the rounded quotient. -/
theorem roundEven_unique (n d q : Nat) (hd : 0 < d) (h1 : 2 * n < 2 * (q * d) + d)
    (h2 : 2 * (q * d) < 2 * n + d) : roundEven n d = q := by
  obtain ⟨hb1, hb2⟩ := roundEven_bounds n d hd
  generalize roundEven n d = r at hb1 hb2 ⊢
  have hle1 : q * d < (r + 1) * d := by nlinarith
  have hle2 : r * d < (q + 1) * d := by nlinarith
  have := Nat.lt_of_mul_lt_mul_right hle1
  have := Nat.lt_of_mul_lt_mul_right hle2
  omega

theorem roundEven_ge_div (n d : Nat) : n / d ≤ roundEven n d := by
  unfold roundEven
  dsimp only
  split_ifs <;> omega

/-- Rounding gives the float64 `m * 2^e` when the exact value has the binary length of
`m * 2^e` and lies strictly within half a unit in the last place of it. -/
theorem roundToF64_near (neg : Bool) (m : Nat) (e : Int) (n d : Nat)
    (hm1 : m % 2 = 1) (hm53 : m < 2 ^ 53) (hmax : (bitLen m : Int) + e ≤ 1024) (hd : 0 < d)
    (k : Nat) (hk : (k : Int) = e + 1074)
    (hlen : bitLen (n * 2 ^ 1074 / d) = bitLen m + k)
    (h1 : 2 * (n * 2 ^ 1074) < 2 * (m * 2 ^ k * d) + d * 2 ^ (bitLen m + k - 53))
    (h2 : 2 * (m * 2 ^ k * d) < 2 * (n * 2 ^ 1074) + d * 2 ^ (bitLen m + k - 53)) :
    roundToF64 neg n d = (fin neg m e, false) := by
  have hmpos : 0 < m := by omega
  have hbl53 : bitLen m ≤ 53 := bitLen_le_of_lt m 53 hm53
  have hsum : bitLen m + k ≤ 2098 := by
    clear h1 h2 hlen
    omega
  obtain ⟨j, hj⟩ : ∃ j : Nat, k = (bitLen m + k - 53) + j := ⟨k - (bitLen m + k - 53), by omega⟩
  generalize hs : bitLen m + k - 53 = s at hj h1 h2
  have hexp : (s : Int) - 1074 + (j : Nat) = e := by
    clear h1 h2 hlen
    omega
  generalize ha : n * 2 ^ 1074 = a at hlen h1 h2
  have hmk : m * 2 ^ k * d = m * 2 ^ j * (d * 2 ^ s) := by
    rw [hj, Nat.pow_add]; ring
  have hmant : roundEven a (d * 2 ^ s) = m * 2 ^ j := by
    apply roundEven_unique _ _ _ (Nat.mul_pos hd (Nat.two_pow_pos _))
    · rw [← hmk]; exact h1
    · rw [← hmk]; exact h2
  have hprod : m * 2 ^ j * 2 ^ s = m * 2 ^ k := by
    rw [hj, Nat.pow_add]; ring
  have hsmall : ¬ 2 ^ 2098 ≤ m * 2 ^ k := by
    have hb1 : m < 2 ^ bitLen m := (bitLen_bounds m hmpos).2.2
    have hb2 : m * 2 ^ k < 2 ^ bitLen m * 2 ^ k :=
      Nat.mul_lt_mul_of_pos_right hb1 (Nat.two_pow_pos _)
    have hb3 : 2 ^ bitLen m * 2 ^ k ≤ 2 ^ 2098 := by
      rw [← Nat.pow_add]
      exact Nat.pow_le_pow_right (by norm_num) hsum
    exact Nat.not_le.mpr (lt_of_lt_of_le hb2 hb3)
  have hne : m * 2 ^ j ≠ 0 := Nat.ne_of_gt (Nat.mul_pos hmpos (Nat.two_pow_pos _))
  have hfuel : j ≤ m * 2 ^ j :=
    le_trans (Nat.le_of_lt (Nat.lt_two_pow j)) (Nat.le_mul_of_pos_left _ hmpos)
  have hstrip : stripTwos (m * 2 ^ j) (m * 2 ^ j) ((s : Int) - 1074) = (m, e) := by
    rw [stripTwos_pow m j hm1 _ hfuel, hexp]
  unfold roundToF64
  simp only [ha, hlen, hs, hmant, hprod, if_neg hsmall, if_neg hne, hstrip]

/-- A float64 of at least `2^46` (and not an integer) survives `%.2f`: the hundredths
written, divided by a hundred, round to it. -/
theorem roundToF64_hundredths_large (neg : Bool) (m : Nat) (e : Int)
    (hm1 : m % 2 = 1) (hm53 : m < 2 ^ 53) (hmax : (bitLen m : Int) + e ≤ 1024)
    (he : e < 0) (K : Nat) (hK : (K : Int) = e + 1074) (hlarge : 1121 ≤ bitLen m + K) :
    roundToF64 neg (hundredths m e) (10 ^ 2) = (fin neg m e, false) := by
  have hmpos : 0 < m := by omega
  have hbm : bitLen m ≤ 53 := bitLen_le_of_lt m 53 hm53
  obtain ⟨hbpos, hblo, hbhi⟩ := bitLen_bounds m hmpos
  obtain ⟨p, hp⟩ : ∃ p : Nat, (p : Int) = -e := ⟨(-e).toNat, by omega⟩
  have hpn : (-e).toNat = p := by omega
  have hpK : p + K = 1074 := by omega
  -- the hundredths and their distance to the exact value
  have hh : hundredths m e = roundEven (m * 100) (2 ^ p) := by
    unfold hundredths
    rw [if_neg (by omega), hpn]
  obtain ⟨hb1, hb2⟩ := roundEven_bounds (m * 100) (2 ^ p) (Nat.two_pow_pos p)
  rw [← hh] at hb1 hb2
  generalize hundredths m e = kh at hb1 hb2 ⊢
  -- powers of two, as atoms
  have hP : 2 ^ p ≤ 64 := by
    have : 2 ^ p ≤ 2 ^ 6 := Nat.pow_le_pow_right (by norm_num) (by omega)
    simpa using this
  obtain ⟨b, hb⟩ : ∃ b : Nat, bitLen m = b + 1 := ⟨bitLen m - 1, by omega⟩
  rw [hb] at hblo hbhi hlarge hbm
  simp only [Nat.add_sub_cancel] at hblo
  have hM2 : 2 ^ (b + 1) = 2 * 2 ^ b := by rw [Nat.pow_succ]; ring
  rw [hM2] at hbhi
  have hMeven : 2 ^ b % 2 = 0 := by
    obtain ⟨c, hc⟩ : ∃ c : Nat, b = c + 1 := ⟨b - 1, by omega⟩
    rw [hc, Nat.pow_succ]
    exact Nat.mul_mod_left _ _
  obtain ⟨w, hw⟩ : ∃ w : Nat, b + 1 + w = 53 := ⟨53 - (b + 1), by omega⟩
  have hs : b + 1 + K - 53 + w = K := by omega
  have hPW : 2 ^ p * 2 ^ w ≤ 64 := by
    rw [← Nat.pow_add]
    have : 2 ^ (p + w) ≤ 2 ^ 6 := Nat.pow_le_pow_right (by norm_num) (by omega)
    simpa using this
  have hT : (2 : Nat) ^ K = 2 ^ (b + 1 + K - 53) * 2 ^ w := by rw [← Nat.pow_add, hs]
  have hbK : b + 1 + K - 1 = b + K := by omega
  have hlo : 2 ^ (b + 1 + K - 1) = 2 ^ b * 2 ^ K := by
    rw [hbK, Nat.pow_add]
  have hhi : 2 ^ (b + 1 + K) = 2 * 2 ^ b * 2 ^ K := by
    rw [Nat.pow_add, hM2]
  have hLpos : 0 < b + 1 + K := by omega
  have h1074 : (2 : Nat) ^ 1074 = 2 ^ p * 2 ^ K := by rw [← Nat.pow_add, hpK]
  apply roundToF64_near neg m e kh (10 ^ 2) hm1 hm53 hmax (by norm_num) K hK
  · rw [hb]
    apply bitLen_unique _ _ hLpos
    · rw [hlo, Nat.le_div_iff_mul_le (by norm_num), h1074]
      clear h1074
      generalize 2 ^ K = T
      generalize 2 ^ p = P at hb1 hb2 hP
      generalize 2 ^ b = M at hblo hbhi hMeven
      have hn : 100 * M ≤ kh * P := by omega
      calc M * T * 10 ^ 2 = 100 * M * T := by ring
        _ ≤ kh * P * T := Nat.mul_le_mul_right T hn
        _ = kh * (P * T) := by ring
    · rw [hhi, Nat.div_lt_iff_lt_mul (by norm_num), h1074]
      clear h1074
      have hTpos : 0 < 2 ^ K := Nat.two_pow_pos K
      generalize 2 ^ K = T at hTpos
      generalize 2 ^ p = P at hb1 hb2 hP
      generalize 2 ^ b = M at hblo hbhi hMeven
      have hn : kh * P < 200 * M := by omega
      calc kh * (P * T) = kh * P * T := by ring
        _ < 200 * M * T := Nat.mul_lt_mul_of_pos_right hn hTpos
        _ = 2 * M * T * 10 ^ 2 := by ring
  · rw [hb, h1074, hT]
    have hSpos : 0 < 2 ^ (b + 1 + K - 53) := Nat.two_pow_pos _
    generalize 2 ^ (b + 1 + K - 53) = S at hSpos
    have hWpos : 0 < 2 ^ w := Nat.two_pow_pos _
    generalize 2 ^ w = W at hPW hWpos
    generalize 2 ^ p = P at hb1 hb2 hP hPW
    have hn : 2 * (kh * P) * W ≤ (2 * (m * 100) + P) * W := Nat.mul_le_mul_right W hb2
    have e1 : 2 * (kh * P) * W = 2 * (kh * P * W) := by ring
    have e2 : (2 * (m * 100) + P) * W = 2 * (m * W * 100) + P * W := by ring
    rw [e1, e2] at hn
    clear h1074
    have hn2 : 2 * (kh * P * W) < 2 * (m * W * 100) + 100 := by omega
    calc 2 * (kh * (P * (S * W))) = 2 * (kh * P * W) * S := by ring
      _ < (2 * (m * W * 100) + 100) * S := Nat.mul_lt_mul_of_pos_right hn2 hSpos
      _ = 2 * (m * (S * W) * 10 ^ 2) + 10 ^ 2 * S := by ring
  · rw [hb, h1074, hT]
    have hSpos : 0 < 2 ^ (b + 1 + K - 53) := Nat.two_pow_pos _
    generalize 2 ^ (b + 1 + K - 53) = S at hSpos
    have hWpos : 0 < 2 ^ w := Nat.two_pow_pos _
    generalize 2 ^ w = W at hPW hWpos
    generalize 2 ^ p = P at hb1 hb2 hP hPW
    have hn : 2 * (m * 100) * W ≤ (2 * (kh * P) + P) * W := Nat.mul_le_mul_right W hb1
    have e1 : 2 * (m * 100) * W = 2 * (m * W * 100) := by ring
    have e2 : (2 * (kh * P) + P) * W = 2 * (kh * P * W) + P * W := by ring
    rw [e1, e2] at hn
    clear h1074
    have hn2 : 2 * (m * W * 100) < 2 * (kh * P * W) + 100 := by omega
    calc 2 * (m * (S * W) * 10 ^ 2) = 2 * (m * W * 100) * S := by ring
      _ < (2 * (kh * P * W) + 100) * S := Nat.mul_lt_mul_of_pos_right hn2 hSpos
      _ = 2 * (kh * (P * (S * W))) + 10 ^ 2 * S := by ring

/-- Dividing out factors of two keeps the value. -/
theorem stripTwos_value (fuel M : Nat) (e0 : Int) :
    ∃ j : Nat, (stripTwos fuel M e0).2 = e0 + j ∧ M = (stripTwos fuel M e0).1 * 2 ^ j := by
  induction fuel generalizing M e0 with
  | zero => exact ⟨0, by simp [stripTwos], by simp [stripTwos]⟩
  | succ fuel ih =>
    unfold stripTwos
    split_ifs with hc
    · obtain ⟨j, hj1, hj2⟩ := ih (M / 2) (e0 + 1)
      refine ⟨j + 1, ?_, ?_⟩
      · rw [hj1]; push_cast; ring
      · have hM : M = 2 * (M / 2) := by omega
        rw [Nat.pow_succ, ← Nat.mul_assoc, ← hj2]
        omega
    · exact ⟨0, by simp, by simp⟩

/-- What a finite, non-zero result of rounding says about the rounded mantissa. -/
theorem roundToF64_inv (neg neg' : Bool) (m : Nat) (e : Int) (n d : Nat) (hm : m ≠ 0)
    (h : roundToF64 neg n d = (fin neg' m e, false)) :
    neg' = neg ∧ ∃ j : Nat, e = ((bitLen (n * 2 ^ 1074 / d) - 53 : Nat) : Int) - 1074 + j
      ∧ roundEven (n * 2 ^ 1074) (d * 2 ^ (bitLen (n * 2 ^ 1074 / d) - 53)) = m * 2 ^ j := by
  unfold roundToF64 at h
  dsimp only at h
  generalize roundEven (n * 2 ^ 1074) (d * 2 ^ (bitLen (n * 2 ^ 1074 / d) - 53)) = mant at h ⊢
  generalize bitLen (n * 2 ^ 1074 / d) - 53 = s at h ⊢
  split_ifs at h with h1 h2
  · simp at h
  · simp only [Prod.mk.injEq, fin.injEq, and_true] at h
    exact absurd h.2.1.symm hm
  · obtain ⟨j, hj1, hj2⟩ := stripTwos_value mant mant ((s : Int) - 1074)
    simp only [Prod.mk.injEq, fin.injEq, and_true] at h
    obtain ⟨hn, hm', he'⟩ := h
    rw [hm'] at hj2
    rw [he'] at hj1
    exact ⟨hn.symm, j, hj1, hj2⟩

/-- For a float64 below `2^46` that is the nearest float64 to `k / 100`, what `%.2f` writes
is `k`, in hundredths. -/
theorem hundredths_of_nearest (neg : Bool) (m : Nat) (e : Int) (k : Nat)
    (hm0 : m ≠ 0) (he : e < 0) (K : Nat) (hK : (K : Int) = e + 1074)
    (hsmall : bitLen m + K ≤ 1120)
    (hk : roundToF64 neg k (10 ^ 2) = (fin neg m e, false)) :
    hundredths m e = k := by
  have hmpos : 0 < m := Nat.pos_of_ne_zero hm0
  obtain ⟨-, j, hj, hmant⟩ := roundToF64_inv neg neg m e k (10 ^ 2) hm0 hk
  obtain ⟨hb1, hb2⟩ := roundEven_bounds (k * 2 ^ 1074)
    (10 ^ 2 * 2 ^ (bitLen (k * 2 ^ 1074 / 10 ^ 2) - 53))
    (Nat.mul_pos (by norm_num) (Nat.two_pow_pos _))
  rw [hmant] at hb1 hb2
  -- the shift `s` of the rounding is at most 1067
  have hs : bitLen (k * 2 ^ 1074 / 10 ^ 2) - 53 ≤ 1067 := by
    by_contra hcon
    have hq0 : 0 < k * 2 ^ 1074 / 10 ^ 2 := by
      by_contra h0
      have hz : k * 2 ^ 1074 / 10 ^ 2 = 0 := by
        clear hb1 hb2 hmant hj hk
        omega
      rw [hz] at hcon
      exact hcon (by decide)
    obtain ⟨-, hlo, -⟩ := bitLen_bounds _ hq0
    generalize hq : k * 2 ^ 1074 / 10 ^ 2 = q at hlo hcon hj hmant hb1 hb2
    generalize hL : bitLen q = L at hlo hcon hj hmant hb1 hb2
    obtain ⟨s, hsL⟩ : ∃ s : Nat, L = s + 53 := ⟨L - 53, by clear hb1 hb2 hq hk; omega⟩
    rw [hsL] at hlo hcon hj hmant
    simp only [Nat.add_sub_cancel] at hlo hcon hj hmant
    -- the rounded mantissa is at least 2^52
    have hdiv : 2 ^ 52 ≤ k * 2 ^ 1074 / (10 ^ 2 * 2 ^ s) := by
      rw [← Nat.div_div_eq_div_mul, hq, Nat.le_div_iff_mul_le (Nat.two_pow_pos _),
        ← Nat.pow_add]
      have : 52 + s = s + 53 - 1 := by clear hb1 hb2 hq hk; omega
      rw [this]
      exact hlo
    have hge : 2 ^ 52 ≤ m * 2 ^ j := by
      rw [← hmant]
      exact le_trans hdiv (roundEven_ge_div _ _)
    have hbl : 53 ≤ bitLen (m * 2 ^ j) := by
      by_contra hlt
      have hup := (bitLen_bounds (m * 2 ^ j) (Nat.mul_pos hmpos (Nat.two_pow_pos _))).2.2
      have hpw : 2 ^ bitLen (m * 2 ^ j) ≤ 2 ^ 52 :=
        Nat.pow_le_pow_right (by norm_num) (by clear hb1 hb2 hq hk hge hup; omega)
      exact absurd (lt_of_lt_of_le hup hpw) (Nat.not_lt.mpr hge)
    rw [bitLen_mul_pow m j hmpos] at hbl
    clear hb1 hb2 hq hk hge hdiv hlo hmant
    omega
  generalize bitLen (k * 2 ^ 1074 / 10 ^ 2) - 53 = s at hj hmant hb1 hb2 hs
  obtain ⟨p, hp⟩ : ∃ p : Nat, (p : Int) = -e := ⟨(-e).toNat, by clear hb1 hb2 hk; omega⟩
  have hpn : (-e).toNat = p := by clear hb1 hb2 hk; omega
  have hpK : p + K = 1074 := by clear hb1 hb2 hk; omega
  have hKsj : K = s + j := by clear hb1 hb2 hk; omega
  obtain ⟨v, hv⟩ : ∃ v : Nat, s + 7 + v = 1074 := ⟨1067 - s, by clear hb1 hb2 hk; omega⟩
  have hh : hundredths m e = roundEven (m * 100) (2 ^ p) := by
    unfold hundredths
    rw [if_neg (by clear hb1 hb2 hk; omega), hpn]
  rw [hh]
  clear hk hmant hh
  have h1074a : (2 : Nat) ^ 1074 = 2 ^ p * 2 ^ K := by rw [← Nat.pow_add, hpK]
  have h1074b : (2 : Nat) ^ 1074 = 128 * 2 ^ v * 2 ^ s := by
    rw [← hv, Nat.pow_add, Nat.pow_add]
    ring
  have hKT : (2 : Nat) ^ K = 2 ^ j * 2 ^ s := by rw [hKsj, Nat.pow_add]; ring
  have hTpos : 0 < 2 ^ K := Nat.two_pow_pos K
  have hVpos : 0 < 2 ^ v := Nat.two_pow_pos v
  have hSpos : 0 < 2 ^ s := Nat.two_pow_pos s
  apply roundEven_unique _ _ _ (Nat.two_pow_pos p)
  · apply Nat.lt_of_mul_lt_mul_right (a := 2 ^ K)
    have e1 : 2 * (m * 100) * 2 ^ K = 2 * (m * 2 ^ j * (10 ^ 2 * 2 ^ s)) := by
      rw [hKT]; ring
    have e2 : (2 * (k * 2 ^ p) + 2 ^ p) * 2 ^ K = 2 * (k * 2 ^ 1074) + 2 ^ 1074 := by
      rw [h1074a]; ring
    rw [e1, e2]
    have hlt : 10 ^ 2 * 2 ^ s < 2 ^ 1074 := by
      rw [h1074b]
      clear hb1 hb2 h1074a h1074b e1 e2
      generalize 2 ^ s = S at hSpos
      generalize 2 ^ v = V at hVpos
      nlinarith
    generalize 2 ^ 1074 = B at hb1 hb2 hlt h1074a h1074b e1 e2 ⊢
    clear h1074a h1074b e1 e2
    omega
  · apply Nat.lt_of_mul_lt_mul_right (a := 2 ^ K)
    have e1 : 2 * (m * 100) * 2 ^ K = 2 * (m * 2 ^ j * (10 ^ 2 * 2 ^ s)) := by
      rw [hKT]; ring
    have e2 : 2 * (k * 2 ^ p) * 2 ^ K = 2 * (k * 2 ^ 1074) := by
      rw [h1074a]; ring
    have e3 : (2 * (m * 100) + 2 ^ p) * 2 ^ K
        = 2 * (m * 2 ^ j * (10 ^ 2 * 2 ^ s)) + 2 ^ 1074 := by
      rw [h1074a, hKT]; ring
    rw [e2, e3]
    have hlt : 10 ^ 2 * 2 ^ s < 2 ^ 1074 := by
      rw [h1074b]
      clear hb1 hb2 h1074a h1074b e1 e2 e3
      generalize 2 ^ s = S at hSpos
      generalize 2 ^ v = V at hVpos
      nlinarith
    generalize 2 ^ 1074 = B at hb1 hb2 hlt h1074a h1074b e1 e2 e3 ⊢
    clear h1074a h1074b e1 e2 e3
    omega

end F64

/-- Writing the float64 of a two-decimal numeral by `%.2f` and parsing the text gives the
float64 back, with no error. -/
theorem parseFloat_fmt2_nearest (x : F64) (hx : x.isFloat64 = true) (h2 : TwoDecimals x) :
    parseFloat (fmt2 x) = (x, none) := by
  obtain ⟨neg', k, hk⟩ := h2
  cases x with
  | nan =>
    unfold F64.roundToF64 at hk
    dsimp only at hk
    split_ifs at hk <;> simp at hk
  | inf n =>
    unfold F64.roundToF64 at hk
    dsimp only at hk
    split_ifs at hk <;> simp at hk
  | fin neg m e =>
    by_cases hexact : hasTwoDecimals (F64.fin neg m e) = true
    · exact parseFloat_fmt2_roundtrip _ hx hexact
    · have hm : m ≠ 0 := by
        intro h0
        subst h0
        have hx' : (if (0 : Nat) = 0 then decide (e = 0)
            else decide ((0 : Nat) % 2 = 1 ∧ (0 : Nat) < 2 ^ 53 ∧ -1074 ≤ e
              ∧ (F64.bitLen 0 : Int) + e ≤ 1024)) = true := hx
        rw [if_pos rfl] at hx'
        have he : e = 0 := of_decide_eq_true hx'
        subst he
        exact hexact (by cases neg <;> decide)
      have he : e < 0 := by
        by_contra hpos
        exact hexact (decide_eq_true (Or.inl (not_lt.mp hpos)))
      have hx' : (if m = 0 then decide (e = 0)
          else decide (m % 2 = 1 ∧ m < 2 ^ 53 ∧ -1074 ≤ e ∧ (F64.bitLen m : Int) + e ≤ 1024))
          = true := hx
      rw [if_neg hm] at hx'
      obtain ⟨hodd, h53, hlo, hhi⟩ := of_decide_eq_true hx'
      obtain ⟨hneg, -⟩ := F64.roundToF64_inv neg' neg m e k (10 ^ 2) hm hk
      rw [← hneg] at hk
      obtain ⟨K, hK⟩ : ∃ K : Nat, (K : Int) = e + 1074 := ⟨(e + 1074).toNat, by omega⟩
      rw [parseFloat_fmt2_fin]
      by_cases hlarge : 1121 ≤ F64.bitLen m + K
      · rw [F64.roundToF64_hundredths_large neg m e hodd h53 hhi he K hK hlarge]
        rfl
      · rw [F64.hundredths_of_nearest neg m e k hm he K hK (by omega) hk, hk]
        rfl

/-! ## The csv reader on what the csv writer wrote -/

theorem ReaderState.run_append (a b : List Char) (st : ReaderState) :
    st.run (a ++ b)
      = match st.run a with
        | Except.ok st' => st'.run b
        | Except.error e => Except.error e := by
  induction a generalizing st with
  | nil => rfl
  | cons c cs ih =>
    show (match st.step c with
          | Except.ok st' => st'.run (cs ++ b)
          | Except.error e => Except.error e) = _
    rw [ReaderState.run]
    cases st.step c with
    | ok st' => exact ih st'
    | error e => rfl

theorem ReaderState.close_inv (st st' : ReaderState) (fields : List String) (h : st.Inv)
    (hc : st.close fields = Except.ok st') :
    st'.Inv ∧ st'.mode = ReaderMode.recordStart ∧ st'.records = st.records ++ [fields] := by
  obtain ⟨h1, h2, _⟩ := h
  unfold ReaderState.close at hc
  cases hf : st.fieldsPerRecord with
  | none =>
    rw [hf] at hc h1 h2
    simp only [Except.ok.injEq] at hc
    subst hc
    have hnil : st.records = [] := by
      cases hr : st.records with
      | nil => rfl
      | cons r rs => rw [hr] at h1; simp at h1
    refine ⟨⟨?_, ?_, fun _ => ⟨rfl, rfl⟩⟩, rfl, rfl⟩
    · simp [hnil]
    · intro r hr
      simp only [hnil, List.nil_append, List.mem_singleton] at hr
      rw [hr]
  | some n =>
    rw [hf] at hc h1 h2
    by_cases hl : fields.length = n
    · simp only [hl, if_true, Except.ok.injEq] at hc
      subst hc
      refine ⟨⟨?_, ?_, fun _ => ⟨rfl, rfl⟩⟩, rfl, rfl⟩
      · cases hr : st.records with
        | nil => simp [hl]
        | cons r rs => rw [hr] at h1; simpa using h1
      · intro r hr
        rcases List.mem_append.mp hr with hr | hr
        · exact h2 r hr
        · rw [List.mem_singleton.mp hr, hl]
    · simp [hl] at hc

theorem ReaderState.step_inv (st st' : ReaderState) (c : Char) (h : st.Inv)
    (hs : st.step c = Except.ok st') : st'.Inv := by
  have hkeep : ∀ (m : ReaderMode) (f : List Char) (r : List String),
      (m = ReaderMode.recordStart → f = [] ∧ r = []) →
      ReaderState.Inv ⟨m, f, r, st.records, st.fieldsPerRecord⟩ :=
    fun m f r hm => ⟨h.1, h.2.1, hm⟩
  have hclose : st.endRecord = Except.ok st' → st'.Inv :=
    fun hc => (ReaderState.close_inv st st' _ h hc).1
  unfold ReaderState.step at hs
  cases hm : st.mode <;> rw [hm] at hs <;> simp only [] at hs <;> split_ifs at hs <;>
    first
    | exact hclose hs
    | (simp only [Except.ok.injEq] at hs
       subst hs
       first
       | exact h
       | (apply hkeep; intro hx; exact absurd hx (by decide)))

theorem ReaderState.run_inv (cs : List Char) (st st' : ReaderState) (h : st.Inv)
    (hs : st.run cs = Except.ok st') : st'.Inv := by
  induction cs generalizing st with
  | nil =>
    simp only [ReaderState.run, Except.ok.injEq] at hs
    exact hs ▸ h
  | cons c cs ih =>
    rw [ReaderState.run] at hs
    cases hstep : st.step c with
    | ok s1 =>
      rw [hstep] at hs
      exact ih s1 (ReaderState.step_inv st s1 c h hstep) hs
    | error e => rw [hstep] at hs; simp at hs

theorem ReaderState.init_inv : ReaderState.init.Inv :=
  ⟨rfl, fun _ hr => absurd hr (List.not_mem_nil _), fun _ => ⟨rfl, rfl⟩⟩

theorem ReaderState.step_newline_mode (st st' : ReaderState) (h : st.Inv)
    (hs : st.step '\n' = Except.ok st') :
    st'.mode = ReaderMode.recordStart ∨ st'.mode = ReaderMode.quoted := by
  unfold ReaderState.step at hs
  cases hm : st.mode <;> rw [hm] at hs <;> simp only [] at hs
  · simp only [if_true, Except.ok.injEq] at hs
    exact Or.inl (hs ▸ hm)
  · simp only [if_true] at hs
    exact Or.inl (ReaderState.close_inv st st' _ h hs).2.1
  · simp only [if_true] at hs
    exact Or.inl (ReaderState.close_inv st st' _ h hs).2.1
  · rw [if_neg (by decide)] at hs
    simp only [Except.ok.injEq] at hs
    subst hs
    exact Or.inr rfl
  · rw [if_neg (by decide), if_neg (by decide)] at hs
    simp only [if_true] at hs
    exact Or.inl (ReaderState.close_inv st st' _ h hs).2.1

theorem normalizeLines_cons_ne (c : Char) (cs : List Char) (h : c ≠ '\r') :
    normalizeLines (c :: cs) = c :: normalizeLines cs := by
  rw [normalizeLines.eq_def]
  simp only [if_neg h]

theorem normalizeLines_cr_nl (cs : List Char) :
    normalizeLines ('\r' :: '\n' :: cs) = '\n' :: normalizeLines cs := by
  rw [normalizeLines.eq_def]
  simp only [if_true]
  rw [normalizeLines_cons_ne _ _ (by decide)]

theorem normalizeLines_cr_other (d : Char) (cs : List Char) (h : d ≠ '\n') :
    normalizeLines ('\r' :: d :: cs) = '\r' :: normalizeLines (d :: cs) := by
  rw [normalizeLines.eq_def]
  simp only [if_true, if_neg h]

theorem normalizeLines_append_newline (pre w : List Char) :
    normalizeLines (pre ++ '\n' :: w) = normalizeLines (pre ++ ['\n']) ++ normalizeLines w := by
  induction pre with
  | nil =>
    show normalizeLines ('\n' :: w) = normalizeLines ['\n'] ++ normalizeLines w
    rw [normalizeLines_cons_ne _ _ (by decide)]
    rfl
  | cons c cs ih =>
    by_cases hc : c = '\r'
    · subst hc
      cases cs with
      | nil =>
        show normalizeLines ('\r' :: '\n' :: w) = normalizeLines ['\r', '\n'] ++ normalizeLines w
        rw [normalizeLines_cr_nl]
        rfl
      | cons d ds =>
        show normalizeLines ('\r' :: (d :: ds ++ '\n' :: w))
          = normalizeLines ('\r' :: (d :: ds ++ ['\n'])) ++ normalizeLines w
        by_cases hd : d = '\n'
        · subst hd
          show normalizeLines ('\r' :: '\n' :: (ds ++ '\n' :: w))
            = normalizeLines ('\r' :: '\n' :: (ds ++ ['\n'])) ++ normalizeLines w
          rw [normalizeLines_cr_nl, normalizeLines_cr_nl,
            ← normalizeLines_cons_ne '\n' _ (by decide),
            ← normalizeLines_cons_ne '\n' (ds ++ ['\n']) (by decide)]
          exact ih
        · show normalizeLines ('\r' :: d :: (ds ++ '\n' :: w))
            = normalizeLines ('\r' :: d :: (ds ++ ['\n'])) ++ normalizeLines w
          rw [normalizeLines_cr_other _ _ hd, normalizeLines_cr_other _ _ hd]
          show '\r' :: normalizeLines (d :: ds ++ '\n' :: w) = _
          rw [ih]
          rfl
    · show normalizeLines (c :: (cs ++ '\n' :: w))
        = normalizeLines (c :: (cs ++ ['\n'])) ++ normalizeLines w
      rw [normalizeLines_cons_ne _ _ hc, normalizeLines_cons_ne _ _ hc, ih]
      rfl

theorem normalizeLines_ends_newline (pre : List Char) :
    ∃ q, normalizeLines (pre ++ ['\n']) = q ++ ['\n'] := by
  induction pre with
  | nil => exact ⟨[], by decide⟩
  | cons c cs ih =>
    obtain ⟨q, hq⟩ := ih
    by_cases hc : c = '\r'
    · subst hc
      cases cs with
      | nil => exact ⟨[], by decide⟩
      | cons d ds =>
        by_cases hd : d = '\n'
        · subst hd
          show ∃ q, normalizeLines ('\r' :: '\n' :: (ds ++ ['\n'])) = q ++ ['\n']
          rw [normalizeLines_cr_nl, ← normalizeLines_cons_ne '\n' (ds ++ ['\n']) (by decide)]
          exact ⟨q, hq⟩
        · show ∃ q, normalizeLines ('\r' :: d :: (ds ++ ['\n'])) = q ++ ['\n']
          rw [normalizeLines_cr_other _ _ hd]
          exact ⟨'\r' :: q, by rw [List.cons_append, ← hq]; rfl⟩
    · show ∃ q, normalizeLines (c :: (cs ++ ['\n'])) = q ++ ['\n']
      rw [normalizeLines_cons_ne _ _ hc, hq]
      exact ⟨c :: q, rfl⟩

theorem normalizeLines_id (s : List Char) (h : ∀ c ∈ s, c ≠ '\r') : normalizeLines s = s := by
  induction s with
  | nil => rfl
  | cons c cs ih =>
    rw [normalizeLines_cons_ne _ _ (h c (List.mem_cons_self _ _)),
      ih (fun x hx => h x (List.mem_cons_of_mem _ hx))]

theorem mem_escapeQuotes (cs : List Char) (x : Char) (h : x ∈ escapeQuotes cs) :
    x = '"' ∨ x ∈ cs := by
  induction cs with
  | nil => simp [escapeQuotes] at h
  | cons c cs ih =>
    rw [escapeQuotes] at h
    split_ifs at h with hc
    · simp only [List.mem_cons] at h
      rcases h with h | h | h
      · exact Or.inl h
      · exact Or.inl h
      · rcases ih h with h | h
        · exact Or.inl h
        · exact Or.inr (List.mem_cons_of_mem _ h)
    · simp only [List.mem_cons] at h
      rcases h with h | h
      · exact Or.inr (h ▸ List.mem_cons_self _ _)
      · rcases ih h with h | h
        · exact Or.inl h
        · exact Or.inr (List.mem_cons_of_mem _ h)

theorem mem_csvWriteField (s : String) (x : Char) (h : x ∈ csvWriteField s) :
    x = '"' ∨ x ∈ s.toList := by
  unfold csvWriteField at h
  split_ifs at h
  · simp only [List.mem_cons, List.mem_append, List.mem_singleton, List.not_mem_nil,
      or_false] at h
    rcases h with h | h | h
    · exact Or.inl h
    · exact mem_escapeQuotes _ _ h
    · exact Or.inl h
  · exact Or.inr h

theorem mem_csvWriteFields (row : List String) (x : Char) (h : x ∈ csvWriteFields row) :
    x = '"' ∨ x = ',' ∨ ∃ s ∈ row, x ∈ s.toList := by
  induction row with
  | nil => simp [csvWriteFields] at h
  | cons f rest ih =>
    cases rest with
    | nil =>
      rcases mem_csvWriteField f x h with h | h
      · exact Or.inl h
      · exact Or.inr (Or.inr ⟨f, List.mem_cons_self _ _, h⟩)
    | cons g rest =>
      rw [csvWriteFields] at h
      simp only [List.mem_append, List.mem_cons] at h
      rcases h with h | h | h
      · rcases mem_csvWriteField f x h with h | h
        · exact Or.inl h
        · exact Or.inr (Or.inr ⟨f, List.mem_cons_self _ _, h⟩)
      · exact Or.inr (Or.inl h)
      · rcases ih h with h | h | ⟨s, hs, h⟩
        · exact Or.inl h
        · exact Or.inr (Or.inl h)
        · exact Or.inr (Or.inr ⟨s, List.mem_cons_of_mem _ hs, h⟩)

theorem csvWriteRecord_no_cr (row : List String) (h : ∀ s ∈ row, ∀ c ∈ s.toList, c ≠ '\r') :
    ∀ c ∈ csvWriteRecord row, c ≠ '\r' := by
  intro c hc
  unfold csvWriteRecord at hc
  rcases List.mem_append.mp hc with hc | hc
  · rcases mem_csvWriteFields row c hc with hc | hc | ⟨s, hs, hc⟩
    · rw [hc]; decide
    · rw [hc]; decide
    · exact h s hs c hc
  · rw [List.mem_singleton.mp hc]; decide

theorem csvWriteAll_no_cr (rows : List (List String))
    (h : ∀ row ∈ rows, ∀ s ∈ row, ∀ c ∈ s.toList, c ≠ '\r') :
    ∀ c ∈ csvWriteAll rows, c ≠ '\r' := by
  induction rows with
  | nil => intro c hc; simp [csvWriteAll] at hc
  | cons r rs ih =>
    intro c hc
    rw [csvWriteAll] at hc
    rcases List.mem_append.mp hc with hc | hc
    · exact csvWriteRecord_no_cr r (h r (List.mem_cons_self _ _)) c hc
    · exact ih (fun row hrow => h row (List.mem_cons_of_mem _ hrow)) c hc

theorem ReaderState.run_unquoted (cs : List Char) (f : List Char) (r : List String)
    (rs : List (List String)) (n : Option Nat)
    (hcs : ∀ c ∈ cs, c ≠ '\n' ∧ c ≠ ',' ∧ c ≠ '"') :
    ReaderState.run ⟨ReaderMode.unquoted, f, r, rs, n⟩ cs
      = Except.ok ⟨ReaderMode.unquoted, f ++ cs, r, rs, n⟩ := by
  induction cs generalizing f with
  | nil => simp [ReaderState.run]
  | cons c cs ih =>
    obtain ⟨h1, h2, h3⟩ := hcs c (List.mem_cons_self _ _)
    have hstep : ReaderState.step ⟨ReaderMode.unquoted, f, r, rs, n⟩ c
        = Except.ok ⟨ReaderMode.unquoted, f ++ [c], r, rs, n⟩ := by
      simp [ReaderState.step, h1, h2, h3]
    rw [ReaderState.run, hstep]
    simp only []
    rw [ih (f ++ [c]) (fun x hx => hcs x (List.mem_cons_of_mem _ hx))]
    simp

theorem ReaderState.run_quoted (cs : List Char) (f : List Char) (r : List String)
    (rs : List (List String)) (n : Option Nat) :
    ReaderState.run ⟨ReaderMode.quoted, f, r, rs, n⟩ (escapeQuotes cs)
      = Except.ok ⟨ReaderMode.quoted, f ++ cs, r, rs, n⟩ := by
  induction cs generalizing f with
  | nil => simp [ReaderState.run, escapeQuotes]
  | cons c cs ih =>
    by_cases hc : c = '"'
    · subst hc
      rw [escapeQuotes, if_pos rfl, ReaderState.run]
      have h1 : ReaderState.step ⟨ReaderMode.quoted, f, r, rs, n⟩ '"'
          = Except.ok ⟨ReaderMode.quoteSeen, f, r, rs, n⟩ := by
        simp [ReaderState.step]
      rw [h1]
      simp only []
      rw [ReaderState.run]
      have h2 : ReaderState.step ⟨ReaderMode.quoteSeen, f, r, rs, n⟩ '"'
          = Except.ok ⟨ReaderMode.quoted, f ++ ['"'], r, rs, n⟩ := by
        simp [ReaderState.step]
      rw [h2]
      simp only []
      rw [ih (f ++ ['"'])]
      simp
    · rw [escapeQuotes, if_neg hc, ReaderState.run]
      have h1 : ReaderState.step ⟨ReaderMode.quoted, f, r, rs, n⟩ c
          = Except.ok ⟨ReaderMode.quoted, f ++ [c], r, rs, n⟩ := by
        simp [ReaderState.step, hc]
      rw [h1]
      simp only []
      rw [ih (f ++ [c])]
      simp

theorem fieldNeedsQuotes_false (s : String) (h : fieldNeedsQuotes s = false) :
    ∀ c ∈ s.toList, c ≠ '\n' ∧ c ≠ ',' ∧ c ≠ '"' := by
  unfold fieldNeedsQuotes at h
  split_ifs at h with h1 h2 h3
  · intro c hc
    rw [h1] at hc
    simp at hc
  · intro c hc
    have hx : ¬ (c = '\n' ∨ c = '\r' ∨ c = '"' ∨ c = ',') := by
      intro hcon
      apply h3
      rw [List.any_eq_true]
      exact ⟨c, hc, by simpa [or_assoc] using hcon⟩
    exact ⟨fun e => hx (Or.inl e), fun e => hx (Or.inr (Or.inr (Or.inr e))),
      fun e => hx (Or.inr (Or.inr (Or.inl e)))⟩

/-- A written field up to the separator that ends it, read at the start of a field: the
reader is left with the field and, after a comma, at the start of the next field. -/
theorem ReaderState.run_field (s : String) (sep : Char) (m : ReaderMode)
    (hm : m = ReaderMode.recordStart ∨ m = ReaderMode.fieldStart) (r : List String)
    (rs : List (List String)) (n : Option Nat) (tail : List Char)
    (hsep : sep = ',' ∨ (sep = '\n' ∧ m = ReaderMode.fieldStart)) :
    ReaderState.run ⟨m, [], r, rs, n⟩ (csvWriteField s ++ sep :: tail)
      = if sep = ',' then ReaderState.run ⟨ReaderMode.fieldStart, [], r ++ [s], rs, n⟩ tail
        else
          match ReaderState.close ⟨ReaderMode.recordStart, [], [], rs, n⟩ (r ++ [s]) with
          | Except.ok st => st.run tail
          | Except.error e => Except.error e := by
  obtain ⟨l⟩ := s
  have hend : ∀ (m' : ReaderMode) (f : List Char),
      m' = ReaderMode.fieldStart ∨ m' = ReaderMode.unquoted ∨ m' = ReaderMode.quoteSeen →
      ReaderState.run ⟨m', f, r, rs, n⟩ (sep :: tail)
        = if sep = ',' then
            ReaderState.run ⟨ReaderMode.fieldStart, [], r ++ [String.mk f], rs, n⟩ tail
          else
            match ReaderState.close ⟨ReaderMode.recordStart, [], [], rs, n⟩
                (r ++ [String.mk f]) with
            | Except.ok st => st.run tail
            | Except.error e => Except.error e := by
    intro m' f hm'
    rw [ReaderState.run]
    rcases hsep with hsep | ⟨hsep, _⟩
    · subst hsep
      rcases hm' with hm' | hm' | hm' <;> subst hm' <;>
        simp [ReaderState.step, ReaderState.endField]
    · subst hsep
      rcases hm' with hm' | hm' | hm' <;> subst hm' <;>
        simp [ReaderState.step, ReaderState.endRecord, ReaderState.close]
  by_cases hq : fieldNeedsQuotes (String.mk l) = true
  · have hw : csvWriteField (String.mk l) ++ sep :: tail
        = '"' :: (escapeQuotes l ++ '"' :: sep :: tail) := by
      simp [csvWriteField, hq]
    rw [hw, ReaderState.run]
    have h1 : ReaderState.step ⟨m, [], r, rs, n⟩ '"'
        = Except.ok ⟨ReaderMode.quoted, [], r, rs, n⟩ := by
      rcases hm with hm | hm <;> subst hm <;> simp [ReaderState.step]
    rw [h1]
    simp only []
    rw [ReaderState.run_append, ReaderState.run_quoted]
    simp only [List.nil_append]
    rw [ReaderState.run]
    have h2 : ReaderState.step ⟨ReaderMode.quoted, l, r, rs, n⟩ '"'
        = Except.ok ⟨ReaderMode.quoteSeen, l, r, rs, n⟩ := by
      simp [ReaderState.step]
    rw [h2]
    simp only []
    exact hend ReaderMode.quoteSeen l (Or.inr (Or.inr rfl))
  · have hq' : fieldNeedsQuotes (String.mk l) = false := by simpa using hq
    have hw : csvWriteField (String.mk l) ++ sep :: tail = l ++ sep :: tail := by
      simp [csvWriteField, hq']
    have hchars := fieldNeedsQuotes_false _ hq'
    rw [hw]
    cases l with
    | nil =>
      rcases hsep with hsep | ⟨hsep, hfs⟩
      · subst hsep
        rcases hm with hm | hm <;> subst hm <;>
          simp [ReaderState.run, ReaderState.step, ReaderState.endField]
      · subst hfs
        exact hend ReaderMode.fieldStart [] (Or.inl rfl)
    | cons c cs =>
      obtain ⟨c1, c2, c3⟩ := hchars c (List.mem_cons_self _ _)
      show ReaderState.run ⟨m, [], r, rs, n⟩ (c :: (cs ++ sep :: tail)) = _
      rw [ReaderState.run]
      have h1 : ReaderState.step ⟨m, [], r, rs, n⟩ c
          = Except.ok ⟨ReaderMode.unquoted, [c], r, rs, n⟩ := by
        rcases hm with hm | hm <;> subst hm <;> simp [ReaderState.step, c1, c2, c3]
      rw [h1]
      simp only []
      rw [ReaderState.run_append, ReaderState.run_unquoted cs [c] r rs n
        (fun x hx => hchars x (List.mem_cons_of_mem _ hx))]
      exact hend ReaderMode.unquoted ([c] ++ cs) (Or.inr (Or.inl rfl))

theorem ReaderState.run_fields (row : List String) (hrow : row ≠ []) (r : List String)
    (rs : List (List String)) (n : Option Nat) (tail : List Char) :
    ReaderState.run ⟨ReaderMode.fieldStart, [], r, rs, n⟩ (csvWriteFields row ++ '\n' :: tail)
      = match ReaderState.close ⟨ReaderMode.recordStart, [], [], rs, n⟩ (r ++ row) with
        | Except.ok st => st.run tail
        | Except.error e => Except.error e := by
  induction row generalizing r with
  | nil => exact absurd rfl hrow
  | cons g rest ih =>
    cases rest with
    | nil =>
      show ReaderState.run _ (csvWriteField g ++ '\n' :: tail) = _
      rw [ReaderState.run_field g '\n' ReaderMode.fieldStart (Or.inr rfl) r rs n tail
        (Or.inr ⟨rfl, rfl⟩), if_neg (by decide)]
    | cons h rest =>
      have hw : csvWriteFields (g :: h :: rest) ++ '\n' :: tail
          = csvWriteField g ++ ',' :: (csvWriteFields (h :: rest) ++ '\n' :: tail) := by
        rw [csvWriteFields, List.append_assoc, List.cons_append]
      rw [hw, ReaderState.run_field g ',' ReaderMode.fieldStart (Or.inr rfl) r rs n _
        (Or.inl rfl), if_pos rfl, ih (List.cons_ne_nil _ _) (r ++ [g])]
      simp

/-- A written record of two fields or more, read at the start of a record. -/
theorem ReaderState.run_record (f g : String) (rest : List String)
    (rs : List (List String)) (n : Option Nat) (tail : List Char) :
    ReaderState.run ⟨ReaderMode.recordStart, [], [], rs, n⟩
        (csvWriteRecord (f :: g :: rest) ++ tail)
      = match ReaderState.close ⟨ReaderMode.recordStart, [], [], rs, n⟩ (f :: g :: rest) with
        | Except.ok st => st.run tail
        | Except.error e => Except.error e := by
  have hw : csvWriteRecord (f :: g :: rest) ++ tail
      = csvWriteField f ++ ',' :: (csvWriteFields (g :: rest) ++ '\n' :: tail) := by
    rw [csvWriteRecord, csvWriteFields]
    simp
  rw [hw, ReaderState.run_field f ',' ReaderMode.recordStart (Or.inl rfl) [] rs n _
    (Or.inl rfl), if_pos rfl, ReaderState.run_fields _ (List.cons_ne_nil _ _)]
  rfl

theorem two_fields (row : List String) (h : 2 ≤ row.length) :
    ∃ f g rest, row = f :: g :: rest := by
  match row, h with
  | f :: g :: rest, _ => exact ⟨f, g, rest, rfl⟩

/-- Written records of one length, two fields or more each, read once the number of fields
of a record is set to that length. -/
theorem ReaderState.run_records (rows : List (List String)) (k : Nat) (hk : 2 ≤ k)
    (hrows : ∀ row ∈ rows, row.length = k) (rs : List (List String)) :
    ReaderState.run ⟨ReaderMode.recordStart, [], [], rs, some k⟩ (csvWriteAll rows)
      = Except.ok ⟨ReaderMode.recordStart, [], [], rs ++ rows, some k⟩ := by
  induction rows generalizing rs with
  | nil => simp [csvWriteAll, ReaderState.run]
  | cons row rows ih =>
    have hlen := hrows row (List.mem_cons_self _ _)
    obtain ⟨f, g, rest, hrow⟩ := two_fields row (hlen ▸ hk)
    subst hrow
    rw [csvWriteAll, ReaderState.run_record]
    simp only [ReaderState.close, hlen, if_true]
    rw [ih (fun r hr => hrows r (List.mem_cons_of_mem _ hr))]
    simp

/-- Reading back what `WriteAll` wrote: records of one length, two fields or more each,
with no carriage return in a field, are read as written. -/
theorem csvReadAll_csvWriteAll (hdr : List String) (rows : List (List String))
    (hk : 2 ≤ hdr.length) (hrows : ∀ row ∈ rows, row.length = hdr.length)
    (hcr : ∀ row ∈ hdr :: rows, ∀ s ∈ row, ∀ c ∈ s.toList, c ≠ '\r') :
    csvReadAll (csvWriteAll (hdr :: rows)) = Except.ok (hdr :: rows) := by
  obtain ⟨f, g, rest, hh⟩ := two_fields hdr hk
  unfold csvReadAll
  rw [normalizeLines_id _ (csvWriteAll_no_cr _ hcr), csvWriteAll]
  subst hh
  show (match ReaderState.run ⟨ReaderMode.recordStart, [], [], [], none⟩
          (csvWriteRecord (f :: g :: rest) ++ csvWriteAll rows) with
        | Except.ok st => st.finish
        | Except.error e => Except.error e) = _
  rw [ReaderState.run_record]
  simp only [ReaderState.close]
  rw [ReaderState.run_records rows _ hk hrows]
  rfl

theorem ReaderState.Inv.uniform (st : ReaderState) (h : st.Inv) (hdr : List String)
    (rows : List (List String)) (hr : st.records = hdr :: rows) :
    ∀ r ∈ rows, r.length = hdr.length := by
  obtain ⟨h1, h2, _⟩ := h
  rw [hr] at h1 h2
  intro r hrow
  have := h2 r (List.mem_cons_of_mem _ hrow)
  rw [h1] at this
  simpa using this

/-- The records `ReadAll` returns all have the number of fields of the first. -/
theorem csvReadAll_uniform (content : List Char) (hdr : List String)
    (rows : List (List String)) (h : csvReadAll content = Except.ok (hdr :: rows)) :
    ∀ r ∈ rows, r.length = hdr.length := by
  unfold csvReadAll at h
  cases hrun : ReaderState.init.run (normalizeLines content) with
  | error e => rw [hrun] at h; simp at h
  | ok st =>
    rw [hrun] at h
    simp only [] at h
    have hinv := ReaderState.run_inv _ _ _ ReaderState.init_inv hrun
    unfold ReaderState.finish at h
    have hclose : (match st.endRecord with
        | Except.ok st' => Except.ok st'.records
        | Except.error e => Except.error e) = Except.ok (hdr :: rows) →
        ∀ r ∈ rows, r.length = hdr.length := by
      intro hc
      cases he : st.endRecord with
      | error e => rw [he] at hc; simp at hc
      | ok st' =>
        rw [he] at hc
        simp only [Except.ok.injEq] at hc
        exact ReaderState.Inv.uniform st' (ReaderState.close_inv st st' _ hinv he).1 _ _ hc
    cases hm : st.mode <;> rw [hm] at h <;> simp only [] at h
    · simp only [Except.ok.injEq] at h
      exact ReaderState.Inv.uniform st hinv _ _ h
    · exact hclose h
    · exact hclose h
    · simp at h
    · exact hclose h

/-- A record appended to a file that ends with a line feed: when the file reads as records
of the length of the record, the new file reads as these records and the record. -/
theorem csvReadAll_append_record (pre : List Char) (records : List (List String))
    (row : List String) (h : csvReadAll (pre ++ ['\n']) = Except.ok records)
    (hlen : ∀ r ∈ records, r.length = row.length) (hk : 2 ≤ row.length)
    (hcr : ∀ s ∈ row, ∀ c ∈ s.toList, c ≠ '\r') :
    csvReadAll (pre ++ ['\n'] ++ csvWriteRecord row) = Except.ok (records ++ [row]) := by
  obtain ⟨q, hq⟩ := normalizeLines_ends_newline pre
  have hnorm : normalizeLines (pre ++ ['\n'] ++ csvWriteRecord row)
      = q ++ ['\n'] ++ csvWriteRecord row := by
    rw [List.append_assoc, List.singleton_append, normalizeLines_append_newline, hq,
      normalizeLines_id _ (csvWriteRecord_no_cr row hcr)]
  unfold csvReadAll at h ⊢
  rw [hq] at h
  rw [hnorm, ReaderState.run_append]
  cases hrun : ReaderState.init.run (q ++ ['\n']) with
  | error e => rw [hrun] at h; simp at h
  | ok st =>
    rw [hrun] at h
    simp only [] at h ⊢
    have hinv := ReaderState.run_inv _ _ _ ReaderState.init_inv hrun
    have hmode : st.mode = ReaderMode.recordStart ∨ st.mode = ReaderMode.quoted := by
      rw [ReaderState.run_append] at hrun
      cases h1 : ReaderState.init.run q with
      | error e => rw [h1] at hrun; simp at hrun
      | ok s1 =>
        rw [h1] at hrun
        simp only [ReaderState.run] at hrun
        cases h2 : s1.step '\n' with
        | error e => rw [h2] at hrun; simp at hrun
        | ok s2 =>
          rw [h2] at hrun
          simp only [Except.ok.injEq] at hrun
          subst hrun
          exact ReaderState.step_newline_mode s1 s2
            (ReaderState.run_inv _ _ _ ReaderState.init_inv h1) h2
    rcases hmode with hmode | hmode
    · obtain ⟨hf, hrec⟩ := hinv.2.2 hmode
      have hfpr := hinv.1
      obtain ⟨m, fl, rc, rs, n⟩ := st
      simp only [] at hmode hf hrec hfpr
      subst hmode hf hrec
      simp only [ReaderState.finish, Except.ok.injEq] at h
      subst h
      obtain ⟨f, g, rest, hrow⟩ := two_fields row hk
      subst hrow
      have hrun2 := ReaderState.run_record f g rest rs n []
      rw [List.append_nil] at hrun2
      rw [hrun2]
      cases rs with
      | nil =>
        simp only [List.head?_nil, Option.map_none'] at hfpr
        subst hfpr
        rfl
      | cons r0 rs =>
        simp only [List.head?_cons, Option.map_some'] at hfpr
        subst hfpr
        have h0 := hlen r0 (List.mem_cons_self _ _)
        simp only [ReaderState.close, h0, if_true]
        rfl
    · unfold ReaderState.finish at h
      rw [hmode] at h
      simp at h

theorem fmt2_no_cr (x : F64) : ∀ c ∈ (fmt2 x).toList, c ≠ '\r' := by
  have hdig : ∀ c ∈ decimalDigits, c ≠ '\r' := by decide
  cases x with
  | nan => decide
  | inf neg => cases neg <;> decide
  | fin neg m e =>
    intro c hc
    have hc' : c ∈ (if neg then ['-'] else []) ++ Nat.toDigits 10 (hundredths m e / 100)
        ++ ['.', Nat.digitChar (hundredths m e % 100 / 10),
            Nat.digitChar (hundredths m e % 10)] := hc
    simp only [List.mem_append, List.mem_cons, List.mem_singleton, List.not_mem_nil,
      or_false] at hc'
    rcases hc' with (hc' | hc') | hc' | hc' | hc'
    · cases neg
      · simp at hc'
      · simp only [if_true, List.mem_singleton] at hc'
        rw [hc']; decide
    · obtain ⟨d, t, hd, hmem, _⟩ := toDigits_spec (hundredths m e / 100)
      rw [hd] at hc'
      exact hdig c (hmem c hc')
    · rw [hc']; decide
    · rw [hc']
      exact hdig _ (digitChar_mem _ (by omega))
    · rw [hc']
      exact hdig _ (digitChar_mem _ (by omega))

theorem RawFile.read_ok (f : RawFile) (h : f.read.readErr = none) :
    f.openErr = none ∧ csvReadAll f.content = Except.ok f.read.records := by
  unfold RawFile.read at h ⊢
  cases ho : f.openErr with
  | some err => rw [ho] at h; simp at h
  | none =>
    rw [ho] at h
    simp only [] at h ⊢
    cases hr : csvReadAll f.content with
    | error e => rw [hr] at h; simp at h
    | ok records => exact ⟨trivial, by simp [hr]⟩

theorem RawFile.read_of_ok (f : RawFile) (records : List (List String))
    (ho : f.openErr = none) (hr : csvReadAll f.content = Except.ok records) :
    f.read = ⟨none, f.writeErr, records⟩ := by
  unfold RawFile.read
  rw [ho, hr]

/-- On the records of a store file followed by the row of a client whose id no data row
has, `GetClientByID` returns the record of that row. -/
theorem GetClientByID_appended (d : Disk) (h : StoreFile d) (c : Client)
    (hnew : ∀ row ∈ dataRows d, row[0]? ≠ some c.ID) :
    GetClientByID { d with records := d.records ++ [rowOf c.ID c] } c.ID
      = some (some ⟨c.ID, c.Name, c.Email, (parseFloat (fmt2 c.TotalInvestment)).1⟩, none) := by
  obtain ⟨hr, hne, h4⟩ := h
  unfold dataRows at hnew
  cases hrec : d.records with
  | nil => exact absurd hrec hne
  | cons hdr rows =>
    rw [hrec] at h4 hnew
    have h4' : ∀ row ∈ rows ++ [rowOf c.ID c], row.length = 4 := by
      intro row hrow
      rcases List.mem_append.mp hrow with hrow | hrow
      · exact h4 row hrow
      · rw [List.mem_singleton.mp hrow]
        rfl
    have hnone : rows.find? (fun row => row[0]? == some c.ID) = none := by
      rw [List.find?_eq_none]
      intro row hrow
      simpa using hnew row hrow
    unfold GetClientByID
    simp only [hr]
    show (getClientByIDLoop c.ID 0 (hdr :: (rows ++ [rowOf c.ID c]))).map _ = _
    rw [getClientByIDLoop, if_pos rfl, getClientByIDLoop_spec c.ID _ h4' 0,
      List.find?_append, hnone]
    have hrow : [rowOf c.ID c].find? (fun row => row[0]? == some c.ID)
        = some (rowOf c.ID c) := by
      simp [rowOf]
    rw [hrow]
    rfl

/-- When `DeleteClient` finds a row and rewrites the file, the records it writes are the
header and the rows with another first field, none of them empty. -/
theorem DeleteClient_found (d d' : Disk) (id : String)
    (h : DeleteClient d id = some ((true, none), d')) :
    ∃ hdr rows, d.records = hdr :: rows ∧ d.readErr = none
      ∧ d'.records = hdr :: rows.filter (fun r => r[0]? != some id)
      ∧ (∃ r ∈ rows, r[0]? = some id)
      ∧ ∀ r ∈ rows, r ≠ [] := by
  unfold DeleteClient at h
  cases hr : d.readErr with
  | some err => rw [hr] at h; simp at h
  | none =>
    rw [hr] at h
    cases hrec : d.records with
    | nil =>
      rw [hrec] at h
      simp [deleteLoop] at h
    | cons hdr rows =>
      rw [hrec] at h
      have hloop : deleteLoop id 0 (hdr :: rows) [] false
          = if rows.all (fun r => !r.isEmpty) then
              some (hdr :: rows.filter (fun r => r[0]? != some id),
                rows.any (fun r => r[0]? == some id))
            else none := by
        rw [deleteLoop, if_pos rfl, deleteLoop_spec]
        simp
      rw [hloop] at h
      by_cases hall : rows.all (fun r => !r.isEmpty) = true
      · rw [if_pos hall] at h
        simp only [] at h
        cases hany : rows.any (fun r => r[0]? == some id) with
        | false => rw [hany] at h; simp at h
        | true =>
          rw [hany] at h
          cases hw : d.writeErr with
          | some err => rw [hw] at h; simp at h
          | none =>
            rw [hw] at h
            simp only [Bool.not_true, Bool.false_eq_true, if_false, Option.some.injEq,
              Prod.mk.injEq, true_and] at h
            subst h
            refine ⟨hdr, rows, rfl, rfl, rfl, ?_, ?_⟩
            · obtain ⟨r, hr1, hr2⟩ := List.any_eq_true.mp hany
              exact ⟨r, hr1, by simpa using hr2⟩
            · intro r hrow hnil
              have hx := List.all_eq_true.mp hall r hrow
              rw [hnil] at hx
              simp at hx
      · rw [if_neg hall] at h
        simp at h

/-- C3, counterexample: the store file ends without a line feed; `CreateClient` succeeds
and its row is written onto the last line, which then has seven fields, so that
`GetClientByID` returns the error of the csv reader and no record. -/
theorem GetClientByID_fails_after_CreateClient :
    StoreFile noFinalNewlineFile.read
    ∧ (∀ row ∈ noFinalNewlineFile.read.records, row.length = 4)
    ∧ (∀ row ∈ dataRows noFinalNewlineFile.read, row[0]? ≠ some erin.ID)
    ∧ CreateClient noFinalNewlineFile erin
        = (none, ⟨none, none,
            ("id,name,email,totalInvestment\n"
              ++ "1,Alice,alice@example.com,1000.005,Erin,erin@example.com,1234.56\n").toList⟩)
    ∧ GetClientByID
          (RawFile.read ⟨none, none,
            ("id,name,email,totalInvestment\n"
              ++ "1,Alice,alice@example.com,1000.005,Erin,erin@example.com,1234.56\n").toList⟩)
          erin.ID
        = some (none, some ⟨"wrong number of fields"⟩) :=
  ⟨⟨by decide!, by decide!, by decide!⟩, by decide!, by decide!, by decide!, by decide!⟩

/-- C3, amended: on a store file whose rows, the header included, have four fields and
whose content ends with a line feed, for a client whose id no data row has and whose ID,
name and email contain no carriage return, after `CreateClient(c)` succeeds
`GetClientByID(c.ID)` on the file it leaves returns, with no error, a record with the ID,
name and email of `c` and with the amount of `c` written by `%.2f` and parsed back; when
the amount of `c` is the float64 of a numeral with at most two decimal digits, that record
is `c` itself. -/
theorem GetClientByID_after_CreateClient (f : RawFile) (h : StoreFile f.read)
    (hhdr : ∀ row ∈ f.read.records, row.length = 4)
    (hend : f.content.getLast? = some '\n') (c : Client)
    (hcr : ∀ s ∈ [c.ID, c.Name, c.Email], ∀ x ∈ s.toList, x ≠ '\r')
    (hnew : ∀ row ∈ dataRows f.read, row[0]? ≠ some c.ID) (f' : RawFile)
    (hcreate : CreateClient f c = (none, f')) :
    GetClientByID f'.read c.ID
        = some (some ⟨c.ID, c.Name, c.Email, (parseFloat (fmt2 c.TotalInvestment)).1⟩, none)
    ∧ (c.TotalInvestment.isFloat64 = true → TwoDecimals c.TotalInvestment
        → GetClientByID f'.read c.ID = some (some c, none)) := by
  have hget : GetClientByID f'.read c.ID
      = some (some ⟨c.ID, c.Name, c.Email, (parseFloat (fmt2 c.TotalInvestment)).1⟩, none) := by
    obtain ⟨ho, hread⟩ := f.read_ok h.1
    obtain ⟨pre, hpre⟩ := List.getLast?_eq_some_iff.mp hend
    unfold CreateClient at hcreate
    cases hw : f.writeErr with
    | some err => rw [hw] at hcreate; simp at hcreate
    | none =>
      rw [hw] at hcreate
      simp only [Prod.mk.injEq, true_and] at hcreate
      subst hcreate
      have hrow : ∀ s ∈ rowOf c.ID c, ∀ x ∈ s.toList, x ≠ '\r' := by
        intro s hs
        simp only [rowOf, List.mem_cons, List.mem_singleton, List.not_mem_nil, or_false] at hs
        rcases hs with hs | hs | hs | hs
        · exact hcr s (by simp [hs])
        · exact hcr s (by simp [hs])
        · exact hcr s (by simp [hs])
        · rw [hs]
          exact fmt2_no_cr _
      rw [hpre] at hread
      have hnewread := csvReadAll_append_record pre f.read.records (rowOf c.ID c) hread
        hhdr (by simp [rowOf]) hrow
      rw [← hpre] at hnewread hread
      have e1 := f.read_of_ok _ ho hread
      rw [hw] at e1
      have e2 := RawFile.read_of_ok
        ⟨f.openErr, none, f.content ++ csvWriteRecord (rowOf c.ID c)⟩ _ ho hnewread
      rw [e2]
      have e3 := GetClientByID_appended f.read h c hnew
      rw [e1] at e3
      exact e3
  refine ⟨hget, ?_⟩
  intro hfloat htwo
  rw [hget, parseFloat_fmt2_nearest c.TotalInvestment hfloat htwo]

/-- C3, witness: creating a client with the amount 1234.56 in the test file and reading
it back. -/
theorem GetClientByID_after_CreateClient_witness :
    StoreFile exampleFile.read
    ∧ (∀ row ∈ exampleFile.read.records, row.length = 4)
    ∧ exampleFile.content.getLast? = some '\n'
    ∧ (∀ s ∈ [erin.ID, erin.Name, erin.Email], ∀ x ∈ s.toList, x ≠ '\r')
    ∧ (∀ row ∈ dataRows exampleFile.read, row[0]? ≠ some erin.ID)
    ∧ CreateClient exampleFile erin
        = (none, { exampleFile with
            content := exampleFile.content ++ "5,Erin,erin@example.com,1234.56\n".toList })
    ∧ erin.TotalInvestment.isFloat64 = true
    ∧ F64.roundToF64 false 123456 (10 ^ 2) = (erin.TotalInvestment, false)
    ∧ GetClientByID
          (RawFile.read { exampleFile with
            content := exampleFile.content ++ "5,Erin,erin@example.com,1234.56\n".toList })
          erin.ID
        = some (some erin, none) :=
  ⟨⟨by decide!, by decide!, by decide!⟩, by decide!, by decide!, by decide!, by decide!,
    by decide!, by decide!, by decide!,
    (GetClientByID_after_CreateClient exampleFile ⟨by decide!, by decide!, by decide!⟩
      (by decide!) (by decide!) erin
      (by decide!) (by decide!) _ (by decide!)).2 (by decide!) ⟨false, 123456, by decide!⟩⟩

/-- C7, counterexample: the ids of the two data rows are `a`, carriage return, line feed,
`b` and `a`, line feed, `b`.  `DeleteClient` of the second id returns (true, no error) and
writes the first row with its id as it is; the csv reader drops the carriage return before
the line feed, so that the row reads back with the deleted id and `GetClientByID` of that
id returns it. -/
theorem GetClientByID_finds_row_after_DeleteClient :
    StoreFile carriageReturnFile.read
    ∧ carriageReturnFile.read.records
        = [exampleHeader, ["a\r\nb", "Ann", "ann@example.com", "10.00"],
            ["a\nb", "Bob", "bob@example.com", "20.00"]]
    ∧ DeleteClientOnFile carriageReturnFile "a\nb"
        = some ((true, none), ⟨none, none,
            ("id,name,email,totalInvestment\n"
              ++ "\"a\r\nb\",Ann,ann@example.com,10.00\n").toList⟩)
    ∧ GetClientByID
          (RawFile.read ⟨none, none,
            ("id,name,email,totalInvestment\n"
              ++ "\"a\r\nb\",Ann,ann@example.com,10.00\n").toList⟩)
          "a\nb"
        = some (some ⟨"a\nb", "Ann", "ann@example.com", F64.fin false 5 1⟩, none) :=
  ⟨⟨by decide!, by decide!, by decide!⟩, by decide!, by decide!, by decide!⟩

/-- C7, amended: on a store file none of whose fields contains a carriage return, when
`DeleteClient(id)` returns (true, no error), `GetClientByID(id)` on the file it leaves
returns nil with no error, whatever the number of data rows that had the id. -/
theorem GetClientByID_after_DeleteClient (f f' : RawFile) (id : String)
    (hstore : StoreFile f.read)
    (hcr : ∀ row ∈ f.read.records, ∀ s ∈ row, ∀ x ∈ s.toList, x ≠ '\r')
    (h : DeleteClientOnFile f id = some ((true, none), f')) :
    GetClientByID f'.read id = some (none, none) := by
  obtain ⟨ho, hread⟩ := f.read_ok hstore.1
  unfold DeleteClientOnFile at h
  cases hd : DeleteClient f.read id with
  | none => rw [hd] at h; simp at h
  | some res =>
    obtain ⟨⟨found, err⟩, d⟩ := res
    rw [hd] at h
    simp only [] at h
    by_cases hfe : found = true ∧ err = none
    · rw [if_pos hfe] at h
      simp only [Option.some.injEq, Prod.mk.injEq] at h
      obtain ⟨⟨hf, he⟩, hf'⟩ := h
      subst hf he hf'
      obtain ⟨hdr, rows, hrec, _, hkept, ⟨r0, hr0, _⟩, _⟩ := DeleteClient_found f.read d id hd
      have h4 : ∀ row ∈ rows, row.length = 4 := by
        have := hstore.2.2
        rw [hrec] at this
        exact this
      have hhdr : hdr.length = 4 := by
        rw [hrec] at hread
        rw [← csvReadAll_uniform f.content hdr rows hread r0 hr0]
        exact h4 r0 hr0
      rw [hrec] at hcr
      have hback : csvReadAll (csvWriteAll d.records) = Except.ok d.records := by
        rw [hkept]
        apply csvReadAll_csvWriteAll
        · rw [hhdr]; decide
        · intro row hrow
          rw [hhdr]
          exact h4 row (List.mem_filter.mp hrow).1
        · intro row hrow
          rcases List.mem_cons.mp hrow with hrow | hrow
          · exact hcr row (hrow ▸ List.mem_cons_self _ _)
          · exact hcr row (List.mem_cons_of_mem _ (List.mem_filter.mp hrow).1)
      rw [RawFile.read_of_ok (f.writeAll d.records) d.records ho hback, hkept]
      unfold GetClientByID
      show (getClientByIDLoop id 0 (hdr :: rows.filter (fun r => r[0]? != some id))).map _ = _
      rw [getClientByIDLoop, if_pos rfl, getClientByIDLoop_absent]
      · rfl
      · intro row hrow
        rw [List.mem_filter] at hrow
        have hne : row ≠ [] := by
          intro hnil
          have := h4 row hrow.1
          rw [hnil] at this
          simp at this
        exact first_field_ne id row hne (by simpa using hrow.2)
    · rw [if_neg hfe] at h
      simp only [Option.some.injEq, Prod.mk.injEq] at h
      exact absurd ⟨h.1.1, h.1.2⟩ hfe

/-- C7, witness: deleting the id `1`, which two data rows share, and reading the file
back. -/
theorem GetClientByID_after_DeleteClient_witness :
    StoreFile duplicateFile.read
    ∧ (∀ row ∈ duplicateFile.read.records, ∀ s ∈ row, ∀ x ∈ s.toList, x ≠ '\r')
    ∧ DeleteClientOnFile duplicateFile "1"
        = some ((true, none), ⟨none, none,
            "id,name,email,totalInvestment\n2,Bob,bob@example.com,20.00\n".toList⟩)
    ∧ GetClientByID
          (RawFile.read ⟨none, none,
            "id,name,email,totalInvestment\n2,Bob,bob@example.com,20.00\n".toList⟩) "1"
        = some (none, none) :=
  ⟨⟨by decide!, by decide!, by decide!⟩, by decide!, by decide!,
    GetClientByID_after_DeleteClient duplicateFile _ "1" ⟨by decide!, by decide!, by decide!⟩
      (by decide!) (by decide!)⟩

end Banking
